import Mathlib

/-!
Shallow embedding of the cipher engine (Caesar, Rail Fence, Columnar
Transposition, Playfair) of the `Cryptography` repository, together with
proofs about it.

Modelling conventions:
* JS strings are `List Char` (the inputs of interest are BMP code points,
  one code unit per character).
* The numeric keys reach the engine as `parseInt` results, i.e. either an
  integer or `NaN`; such a number is modelled as `Option Int`
  (`none` = `NaN`).
* A `throw` is modelled as `Except.error` with a constructor per error
  class of the engine (invalid key, character not found in the matrix).
* JS `%` on integers is truncated remainder, i.e. `Int.tmod`.
* `toUpperCase` is modelled on its ASCII behaviour (`Char.toUpper`); all
  characters the algorithms retain afterwards are ASCII capitals, and the
  regex classes `[a-z]/i`, `[^A-Z]` are ASCII classes.
-/

/-- Direction of a cipher operation (`mode` parameter in the source). -/
inductive Mode where
  | encrypt
  | decrypt
deriving DecidableEq, Repr

/-- Error classes thrown by the engine: malformed/invalid key or input
(`InvalidKey`) and the defensive Playfair lookup failure
(`CharacterNotFound`). -/
inductive CipherError where
  | invalidKey
  | characterNotFound
deriving DecidableEq, Repr

/-- `n` below the surrogate range packs and unpacks exactly. -/
theorem char_toNat_ofNat_valid (n : Nat) (h : n < 55296) :
    (Char.ofNat n).toNat = n := by
  have hv : n.isValidChar := Or.inl h
  simp only [Char.ofNat, hv, dite_true, Char.ofNatAux, Char.toNat]
  rfl

/-- JS single-character test `char.match(/[a-z]/i)`: ASCII Latin letter. -/
def isLatinLetter (c : Char) : Bool :=
  (65 ≤ c.toNat && c.toNat ≤ 90) || (97 ≤ c.toNat && c.toNat ≤ 122)

/-- JS `%` on numbers that are integers: truncated remainder. -/
def jsMod (a b : Int) : Int := Int.tmod a b

/-- The effective shift `s` computed by `caesarCipher` from the raw
integer shift and the mode. -/
def caesarShiftAmount (shift : Int) (mode : Mode) : Int :=
  match mode with
  | .encrypt => jsMod (jsMod shift 26 + 26) 26
  | .decrypt => jsMod (26 - jsMod (jsMod shift 26 + 26) 26) 26

/-- The per-character transformation of `caesarCipher`: letters are
shifted inside their own case's alphabet, everything else is returned
unchanged. -/
def caesarChar (s : Int) (c : Char) : Char :=
  if isLatinLetter c then
    let code : Int := c.toNat
    let base : Int := if 65 ≤ code ∧ code ≤ 90 then 65 else 97
    Char.ofNat (jsMod (code - base + s) 26 + base).toNat
  else c

/-- `caesarCipher(text, shift, mode)`.  `shift = none` models `NaN`
(the only non-integer a `parseInt` key can produce), on which the source
throws its invalid-key error. -/
def caesarCipher (text : List Char) (shift : Option Int) (mode : Mode) :
    Except CipherError (List Char) :=
  match shift with
  | none => .error .invalidKey
  | some sh => .ok (text.map (caesarChar (caesarShiftAmount sh mode)))

-- ### Caesar helper lemmas

theorem tmod_26_bounds (a : Int) : -26 < Int.tmod a 26 ∧ Int.tmod a 26 < 26 := by
  cases a with
  | ofNat m =>
      have h : Int.tmod (Int.ofNat m) 26 = ((m % 26 : Nat) : Int) := rfl
      rw [h]
      have : m % 26 < 26 := Nat.mod_lt _ (by omega)
      omega
  | negSucc m =>
      have h : Int.tmod (Int.negSucc m) 26 = -(((m + 1) % 26 : Nat) : Int) := rfl
      rw [h]
      have : (m + 1) % 26 < 26 := Nat.mod_lt _ (by omega)
      omega

theorem caesarShiftAmount_encrypt_eq (sh : Int) :
    caesarShiftAmount sh .encrypt = sh % 26 := by
  simp only [caesarShiftAmount, jsMod]
  obtain ⟨hlo, hhi⟩ := tmod_26_bounds sh
  have hd : Int.tmod sh 26 = sh - 26 * (sh.tdiv 26) := by
    rw [Int.tmod_def]
  rw [Int.tmod_eq_emod (a := Int.tmod sh 26 + 26) (b := 26) (by omega) (by omega)]
  omega

theorem caesarShiftAmount_decrypt_eq (sh : Int) :
    caesarShiftAmount sh .decrypt = (26 - sh % 26) % 26 := by
  have he := caesarShiftAmount_encrypt_eq sh
  simp only [caesarShiftAmount, jsMod] at he ⊢
  rw [he]
  have h0 : 0 ≤ sh % 26 := Int.emod_nonneg sh (by decide)
  have h1 : sh % 26 < 26 := Int.emod_lt_of_pos sh (by decide)
  rw [Int.tmod_eq_emod (a := 26 - sh % 26) (b := 26) (by omega) (by omega)]

theorem char_ofNat_int_toNat (x : Int) (h0 : 0 ≤ x) (h : x < 55296) :
    ((Char.ofNat x.toNat).toNat : Int) = x := by
  rw [char_toNat_ofNat_valid x.toNat (by omega)]
  omega

theorem isUpper_iff_toNat (c : Char) :
    c.isUpper = true ↔ (65 ≤ c.toNat ∧ c.toNat ≤ 90) := by
  simp only [Char.isUpper, Bool.and_eq_true, decide_eq_true_eq, ge_iff_le]
  constructor
  · rintro ⟨h1, h2⟩; exact ⟨h1, h2⟩
  · rintro ⟨h1, h2⟩; exact ⟨h1, h2⟩

theorem isLower_iff_toNat (c : Char) :
    c.isLower = true ↔ (97 ≤ c.toNat ∧ c.toNat ≤ 122) := by
  simp only [Char.isLower, Bool.and_eq_true, decide_eq_true_eq, ge_iff_le]
  constructor
  · rintro ⟨h1, h2⟩; exact ⟨h1, h2⟩
  · rintro ⟨h1, h2⟩; exact ⟨h1, h2⟩

theorem isLatinLetter_iff_toNat (c : Char) :
    isLatinLetter c = true ↔
      ((65 ≤ c.toNat ∧ c.toNat ≤ 90) ∨ (97 ≤ c.toNat ∧ c.toNat ≤ 122)) := by
  simp only [isLatinLetter, Bool.or_eq_true, Bool.and_eq_true, decide_eq_true_eq]

/-- The behaviour of `caesarChar` on a letter of a given case: the code
point is shifted inside `[base, base + 25]`. -/
theorem caesarChar_letter (s : Int) (h0 : 0 ≤ s) (h26 : s < 26) (c : Char)
    (base : Int) (hb : base = 65 ∨ base = 97)
    (hc1 : base ≤ (c.toNat : Int)) (hc2 : (c.toNat : Int) ≤ base + 25) :
    ((caesarChar s c).toNat : Int) = ((c.toNat : Int) - base + s) % 26 + base := by
  have hlatin : isLatinLetter c = true := by
    rw [isLatinLetter_iff_toNat]; omega
  have hmodlo : 0 ≤ ((c.toNat : Int) - base + s) % 26 :=
    Int.emod_nonneg _ (by decide)
  have hmodhi : ((c.toNat : Int) - base + s) % 26 < 26 :=
    Int.emod_lt_of_pos _ (by decide)
  simp only [caesarChar, hlatin, if_true]
  have hjs : jsMod ((c.toNat : Int) - base + s) 26 =
      ((c.toNat : Int) - base + s) % 26 := by
    unfold jsMod
    exact Int.tmod_eq_emod (by omega) (by decide)
  rcases hb with hb | hb
  · subst hb
    rw [if_pos (by omega)]
    rw [hjs]
    exact char_ofNat_int_toNat _ (by omega) (by omega)
  · subst hb
    rw [if_neg (by omega)]
    rw [show ((97:Int) = 97) from rfl] at hc1
    rw [hjs]
    exact char_ofNat_int_toNat _ (by omega) (by omega)

theorem caesarChar_not_letter (s : Int) (c : Char)
    (hc : isLatinLetter c = false) : caesarChar s c = c := by
  simp only [caesarChar, hc, Bool.false_eq_true, if_false]

/-- Round trip at the level of a single letter. -/
theorem caesarChar_roundtrip (sh : Int) (c : Char)
    (hc : isLatinLetter c = true) :
    caesarChar (caesarShiftAmount sh .decrypt)
      (caesarChar (caesarShiftAmount sh .encrypt) c) = c := by
  have he := caesarShiftAmount_encrypt_eq sh
  have hd := caesarShiftAmount_decrypt_eq sh
  have h0 : 0 ≤ sh % 26 := Int.emod_nonneg sh (by decide)
  have h1 : sh % 26 < 26 := Int.emod_lt_of_pos sh (by decide)
  have hd0 : 0 ≤ (26 - sh % 26) % 26 := Int.emod_nonneg _ (by decide)
  have hd1 : (26 - sh % 26) % 26 < 26 := Int.emod_lt_of_pos _ (by decide)
  rw [isLatinLetter_iff_toNat] at hc
  have hbase : ∃ base : Int, (base = 65 ∨ base = 97) ∧
      base ≤ (c.toNat : Int) ∧ (c.toNat : Int) ≤ base + 25 := by
    rcases hc with h | h
    · exact ⟨65, Or.inl rfl, by omega, by omega⟩
    · exact ⟨97, Or.inr rfl, by omega, by omega⟩
  obtain ⟨base, hb, hc1, hc2⟩ := hbase
  have step1 := caesarChar_letter (caesarShiftAmount sh .encrypt)
    (by rw [he]; omega) (by rw [he]; omega) c base hb hc1 hc2
  set c1 := caesarChar (caesarShiftAmount sh .encrypt) c with hc1def
  have hmodlo : 0 ≤ ((c.toNat : Int) - base + caesarShiftAmount sh .encrypt) % 26 :=
    Int.emod_nonneg _ (by decide)
  have hmodhi : ((c.toNat : Int) - base + caesarShiftAmount sh .encrypt) % 26 < 26 :=
    Int.emod_lt_of_pos _ (by decide)
  have step2 := caesarChar_letter (caesarShiftAmount sh .decrypt)
    (by rw [hd]; omega) (by rw [hd]; omega) c1 base hb
    (by omega) (by omega)
  apply Char.eq_of_val_eq
  apply UInt32.toNat.inj
  have final : ((caesarChar (caesarShiftAmount sh .decrypt) c1).toNat : Int) =
      (c.toNat : Int) := by
    rw [step2, step1, he, hd]
    omega
  exact_mod_cast final

theorem caesarShiftAmount_bounds (sh : Int) (mode : Mode) :
    0 ≤ caesarShiftAmount sh mode ∧ caesarShiftAmount sh mode < 26 := by
  have h0 : 0 ≤ sh % 26 := Int.emod_nonneg sh (by decide)
  have h1 : sh % 26 < 26 := Int.emod_lt_of_pos sh (by decide)
  cases mode
  · rw [caesarShiftAmount_encrypt_eq]; omega
  · rw [caesarShiftAmount_decrypt_eq]
    have h2 : 0 ≤ (26 - sh % 26) % 26 := Int.emod_nonneg _ (by decide)
    have h3 : (26 - sh % 26) % 26 < 26 := Int.emod_lt_of_pos _ (by decide)
    omega

theorem getD_map_lt {α β : Type} (f : α → β) (t : List α) (i : Nat)
    (hi : i < t.length) (d : α) (e : β) :
    (t.map f).getD i e = f (t.getD i d) := by
  rw [List.getD_eq_getElem?_getD, List.getD_eq_getElem?_getD,
    List.getElem?_map, List.getElem?_eq_getElem hi]
  rfl

/-- C5: `caesarCipher` fails (with the invalid-key error) exactly when the
shift is not an integer (`NaN`); every integer shift, however negative or
large, is accepted. -/
theorem caesarCipher_invalidKey_iff (text : List Char) (shift : Option Int)
    (mode : Mode) :
    (caesarCipher text shift mode = .error .invalidKey ↔ shift = none) ∧
    ∀ s : Int, (caesarCipher text (some s) mode).isOk = true := by
  refine ⟨?_, fun s => rfl⟩
  cases shift <;> simp [caesarCipher]

/-- C7: for every integer shift and text made of ASCII letters only,
decrypting an encryption returns the text exactly. -/
theorem caesarCipher_roundtrip (s : Int) (t : List Char)
    (h : ∀ c ∈ t, isLatinLetter c = true) :
    (caesarCipher t (some s) .encrypt).bind
      (fun et => caesarCipher et (some s) .decrypt) = .ok t := by
  show Except.ok ((t.map (caesarChar (caesarShiftAmount s .encrypt))).map
    (caesarChar (caesarShiftAmount s .decrypt))) = Except.ok t
  rw [List.map_map]
  congr 1
  have hcongr : ∀ c ∈ t,
      (caesarChar (caesarShiftAmount s .decrypt) ∘
        caesarChar (caesarShiftAmount s .encrypt)) c = id c := by
    intro c hc
    exact caesarChar_roundtrip s c (h c hc)
  rw [List.map_congr_left hcongr, List.map_id]

/-- Witness for C7 at the spec's own scenario input. -/
theorem caesarCipher_roundtrip_witness :
    (caesarCipher "Attack".toList (some 3) .encrypt).bind
      (fun et => caesarCipher et (some 3) .decrypt) = .ok "Attack".toList :=
  caesarCipher_roundtrip 3 "Attack".toList (by decide)

/-- C8: `caesarCipher` acts character by character: the output has the
length of the input, non-letters are returned unchanged in place, and a
letter keeps its case. -/
theorem caesarCipher_charwise (s : Int) (mode : Mode) (t : List Char)
    (i : Nat) (hi : i < t.length) :
    ∃ r, caesarCipher t (some s) mode = Except.ok r ∧
      r.length = t.length ∧
      (isLatinLetter (t.getD i ' ') = false → r.getD i ' ' = t.getD i ' ') ∧
      ((t.getD i ' ').isUpper = true → (r.getD i ' ').isUpper = true) ∧
      ((t.getD i ' ').isLower = true → (r.getD i ' ').isLower = true) := by
  obtain ⟨ha, hb⟩ := caesarShiftAmount_bounds s mode
  refine ⟨_, rfl, List.length_map _ _, ?_, ?_, ?_⟩ <;>
    rw [getD_map_lt (caesarChar (caesarShiftAmount s mode)) t i hi ' ']
  · intro hl
    exact caesarChar_not_letter _ _ hl
  · intro hu
    rw [isUpper_iff_toNat] at hu ⊢
    have := caesarChar_letter (caesarShiftAmount s mode) ha hb (t.getD i ' ')
      65 (Or.inl rfl) (by omega) (by omega)
    have hm0 : 0 ≤ (((t.getD i ' ').toNat : Int) - 65 + caesarShiftAmount s mode) % 26 :=
      Int.emod_nonneg _ (by decide)
    have hm1 : (((t.getD i ' ').toNat : Int) - 65 + caesarShiftAmount s mode) % 26 < 26 :=
      Int.emod_lt_of_pos _ (by decide)
    omega
  · intro hu
    rw [isLower_iff_toNat] at hu ⊢
    have := caesarChar_letter (caesarShiftAmount s mode) ha hb (t.getD i ' ')
      97 (Or.inr rfl) (by omega) (by omega)
    have hm0 : 0 ≤ (((t.getD i ' ').toNat : Int) - 97 + caesarShiftAmount s mode) % 26 :=
      Int.emod_nonneg _ (by decide)
    have hm1 : (((t.getD i ' ').toNat : Int) - 97 + caesarShiftAmount s mode) % 26 < 26 :=
      Int.emod_lt_of_pos _ (by decide)
    omega

/-- Witness for C8 on a concrete mixed string. -/
theorem caesarCipher_charwise_witness :
    ∃ r, caesarCipher "Az3!".toList (some 3) .encrypt = Except.ok r ∧
      r.length = "Az3!".toList.length ∧
      (isLatinLetter ("Az3!".toList.getD 0 ' ') = false →
        r.getD 0 ' ' = "Az3!".toList.getD 0 ' ') ∧
      (("Az3!".toList.getD 0 ' ').isUpper = true →
        (r.getD 0 ' ').isUpper = true) ∧
      (("Az3!".toList.getD 0 ' ').isLower = true →
        (r.getD 0 ' ').isLower = true) :=
  caesarCipher_charwise 3 .encrypt "Az3!".toList 0 (by decide)

-- ## Playfair cipher

/-- The fixed 25-letter Playfair alphabet (no `J`). -/
def playfairAlphabet : List Char := "ABCDEFGHIKLMNOPQRSTUVWXYZ".toList

/-- Playfair text sanitization: `toUpperCase`, fold `J` to `I`, keep only
capitals (`replace(/[^A-Z]/g, "")`). -/
def sanitizePlayfair (text : List Char) : List Char :=
  (((text.map Char.toUpper).map (fun c => if c = 'J' then 'I' else c)).filter
    (fun c => 65 ≤ c.toNat && c.toNat ≤ 90))

/-- The sanitized key-plus-alphabet string of `createPlayfairMatrix`
(the strip of non-letters is applied to the concatenation). -/
def playfairSanitizedKey (key : List Char) : List Char :=
  (((key.map Char.toUpper).map (fun c => if c = 'J' then 'I' else c)) ++
      playfairAlphabet).filter (fun c => 65 ≤ c.toNat && c.toNat ≤ 90)

/-- `Array.from(new Set(...))`: deduplication preserving the first
occurrence of each element. -/
def dedupFirst : List Char → List Char → List Char
  | [], _ => []
  | c :: rest, seen =>
      if c ∈ seen then dedupFirst rest seen
      else c :: dedupFirst rest (c :: seen)

/-- The insertion-ordered unique characters of the matrix source string. -/
def playfairUniqueChars (key : List Char) : List Char :=
  dedupFirst (playfairSanitizedKey key) []

/-- The rows of the 5×5 Playfair matrix: `uniqueChars.slice(i*5, i*5+5)`
for `i = 0..4`. -/
def playfairMatrixOf (key : List Char) : List (List Char) :=
  (List.range 5).map (fun i => ((playfairUniqueChars key).drop (i * 5)).take 5)

/-- `createPlayfairMatrix(key)`, with its defensive empty-key check. -/
def createPlayfairMatrix (key : List Char) :
    Except CipherError (List (List Char)) :=
  if (playfairSanitizedKey key).length = 0 then .error .invalidKey
  else .ok (playfairMatrixOf key)

/-- Text preparation for encryption: after each character placed at an odd
current length, insert `'X'` if the following source character repeats it;
pad a final odd length with `'X'`. -/
def preparePlayfairBody (res : List Char) : List Char :=
  let prepared :=
    (List.range res.length).foldl
      (fun prepared i =>
        let prepared := prepared ++ [res.getD i ' ']
        if prepared.length % 2 = 1 then
          if i + 1 < res.length ∧ res.getD i ' ' = res.getD (i + 1) ' ' then
            prepared ++ ['X']
          else prepared
        else prepared)
      []
  if prepared.length % 2 = 1 then prepared ++ ['X'] else prepared

/-- `preparePlayfairText(text)`: sanitize, fail if no letter remains,
otherwise run the digraph preparation. -/
def preparePlayfairText (text : List Char) : Except CipherError (List Char) :=
  let res := sanitizePlayfair text
  if res = [] then .error .invalidKey
  else .ok (preparePlayfairBody res)

/-- The row-major scan order of the 5×5 matrix used by `findPos`. -/
def posList : List (Nat × Nat) :=
  (List.range 5).flatMap (fun r => (List.range 5).map (fun c => (r, c)))

/-- `findPos(char)`: first (row, col) whose cell holds `char`, scanning
row-major; `none` models the `CharacterNotFound` throw. -/
def lookupPos (m : List (List Char)) (ch : Char) : Option (Nat × Nat) :=
  posList.find? (fun p => (m.getD p.1 []).getD p.2 ' ' = ch)

/-- The digraph-substitution loop of `playfairCipher`, two characters at a
time.  A trailing lone character would make the source look up
`prepared[i+1] = undefined`, hence the `CharacterNotFound` error in the
singleton case. -/
def playfairPairs (m : List (List Char)) (mode : Mode) :
    List Char → Except CipherError (List Char)
  | [] => .ok []
  | [_] => .error .characterNotFound
  | a :: b :: rest =>
    match lookupPos m a, lookupPos m b with
    | some (r1, c1), some (r2, c2) =>
        let pair :=
          if r1 = r2 then
            let sh := if mode = .encrypt then 1 else 4
            [(m.getD r1 []).getD ((c1 + sh) % 5) ' ',
             (m.getD r2 []).getD ((c2 + sh) % 5) ' ']
          else if c1 = c2 then
            let sh := if mode = .encrypt then 1 else 4
            [(m.getD ((r1 + sh) % 5) []).getD c1 ' ',
             (m.getD ((r2 + sh) % 5) []).getD c2 ' ']
          else
            [(m.getD r1 []).getD c2 ' ', (m.getD r2 []).getD c1 ' ']
        (playfairPairs m mode rest).map (fun out => pair ++ out)
    | _, _ => .error .characterNotFound

/-- `playfairCipher(text, key, mode)`. -/
def playfairCipher (text key : List Char) (mode : Mode) :
    Except CipherError (List Char) :=
  (createPlayfairMatrix key).bind (fun m =>
    match mode with
    | .encrypt =>
        (preparePlayfairText text).bind (fun prepared =>
          playfairPairs m .encrypt prepared)
    | .decrypt =>
        let prepared := sanitizePlayfair text
        if prepared = [] then .error .invalidKey
        else if prepared.length % 2 ≠ 0 then .error .invalidKey
        else playfairPairs m .decrypt prepared)

-- ### Playfair helper lemmas

theorem char_eq_iff_toNat (a b : Char) : a = b ↔ a.toNat = b.toNat :=
  ⟨fun h => congrArg Char.toNat h,
   fun h => Char.eq_of_val_eq (UInt32.toNat.inj h)⟩

theorem mem_playfairAlphabet_iff (x : Char) :
    x ∈ playfairAlphabet ↔
      (65 ≤ x.toNat ∧ x.toNat ≤ 90 ∧ x.toNat ≠ 74) := by
  constructor
  · intro hx
    fin_cases hx <;> decide
  · intro ⟨h1, h2, h3⟩
    have hofNat : x = Char.ofNat x.toNat := (Char.ofNat_toNat x).symm
    rw [hofNat]
    generalize x.toNat = n at h1 h2 h3
    interval_cases n <;> first | decide | omega

theorem mem_dedupFirst (x : Char) :
    ∀ (l seen : List Char), x ∈ dedupFirst l seen ↔ (x ∈ l ∧ x ∉ seen)
  | [], seen => by simp [dedupFirst]
  | c :: rest, seen => by
      by_cases hc : c ∈ seen
      · rw [dedupFirst, if_pos hc, mem_dedupFirst x rest seen]
        constructor
        · rintro ⟨h1, h2⟩; exact ⟨List.mem_cons_of_mem _ h1, h2⟩
        · rintro ⟨h1, h2⟩
          rcases List.mem_cons.mp h1 with h | h
          · subst h; exact absurd hc h2
          · exact ⟨h, h2⟩
      · rw [dedupFirst, if_neg hc]
        simp only [List.mem_cons, mem_dedupFirst x rest (c :: seen)]
        constructor
        · rintro (h | ⟨h1, h2⟩)
          · subst h; exact ⟨Or.inl rfl, hc⟩
          · refine ⟨Or.inr h1, ?_⟩
            intro hs
            exact h2 (Or.inr hs)
        · rintro ⟨h1 | h1, h2⟩
          · exact Or.inl h1
          · by_cases hxc : x = c
            · exact Or.inl hxc
            · refine Or.inr ⟨h1, ?_⟩
              rintro (h | h)
              · exact hxc h
              · exact h2 h

theorem nodup_dedupFirst :
    ∀ (l seen : List Char), (dedupFirst l seen).Nodup
  | [], _ => List.nodup_nil
  | c :: rest, seen => by
      by_cases hc : c ∈ seen
      · rw [dedupFirst, if_pos hc]; exact nodup_dedupFirst rest seen
      · rw [dedupFirst, if_neg hc]
        refine List.Nodup.cons ?_ (nodup_dedupFirst rest (c :: seen))
        intro hmem
        rw [mem_dedupFirst] at hmem
        exact hmem.2 (List.mem_cons_self c seen)

theorem dedupFirst_eq_self :
    ∀ (l seen : List Char), l.Nodup → (∀ x ∈ l, x ∉ seen) →
      dedupFirst l seen = l
  | [], _, _, _ => rfl
  | c :: rest, seen, hnd, hdis => by
      rw [dedupFirst, if_neg (hdis c (List.mem_cons_self c rest))]
      congr 1
      apply dedupFirst_eq_self rest (c :: seen) (List.Nodup.of_cons hnd)
      intro x hx
      intro hmem
      rcases List.mem_cons.mp hmem with h | h
      · subst h
        exact (List.nodup_cons.mp hnd).1 hx
      · exact hdis x (List.mem_cons_of_mem _ hx) h

theorem mem_playfairSanitizedKey_iff (key : List Char) (x : Char) :
    x ∈ playfairSanitizedKey key ↔ x ∈ playfairAlphabet := by
  constructor
  · intro hx
    rw [playfairSanitizedKey, List.mem_filter] at hx
    obtain ⟨hmem, hrange⟩ := hx
    rw [Bool.and_eq_true, decide_eq_true_eq, decide_eq_true_eq] at hrange
    rw [mem_playfairAlphabet_iff]
    refine ⟨hrange.1, hrange.2, ?_⟩
    rcases List.mem_append.mp hmem with hkey | halpha
    · rw [List.mem_map] at hkey
      obtain ⟨c, _, hc⟩ := hkey
      intro h74
      have : x = 'J' := by rw [char_eq_iff_toNat]; exact h74
      rw [this] at hc
      by_cases hcj : c = 'J'
      · rw [if_pos hcj] at hc; exact absurd hc (by decide)
      · rw [if_neg hcj] at hc; exact hcj hc
    · rw [mem_playfairAlphabet_iff] at halpha
      exact halpha.2.2
  · intro hx
    rw [playfairSanitizedKey, List.mem_filter]
    refine ⟨List.mem_append_right _ hx, ?_⟩
    rw [mem_playfairAlphabet_iff] at hx
    rw [Bool.and_eq_true, decide_eq_true_eq, decide_eq_true_eq]
    exact ⟨hx.1, hx.2.1⟩

theorem mem_playfairUniqueChars_iff (key : List Char) (x : Char) :
    x ∈ playfairUniqueChars key ↔ x ∈ playfairAlphabet := by
  rw [playfairUniqueChars, mem_dedupFirst, mem_playfairSanitizedKey_iff]
  simp

theorem playfairUniqueChars_perm (key : List Char) :
    (playfairUniqueChars key).Perm playfairAlphabet := by
  apply (List.perm_ext_iff_of_nodup (nodup_dedupFirst _ _) (by decide)).mpr
  exact mem_playfairUniqueChars_iff key

theorem playfairUniqueChars_length (key : List Char) :
    (playfairUniqueChars key).length = 25 :=
  (playfairUniqueChars_perm key).length_eq

theorem playfairSanitizedKey_ne_nil (key : List Char) :
    (playfairSanitizedKey key).length ≠ 0 := by
  intro h
  rw [List.length_eq_zero] at h
  have : ('A' : Char) ∈ playfairSanitizedKey key :=
    (mem_playfairSanitizedKey_iff key 'A').mpr (by decide)
  rw [h] at this
  exact List.not_mem_nil _ this

theorem createPlayfairMatrix_eq (key : List Char) :
    createPlayfairMatrix key = .ok (playfairMatrixOf key) := by
  rw [createPlayfairMatrix, if_neg (playfairSanitizedKey_ne_nil key)]

theorem join_cons_eq {α : Type} (x : List α) (xs : List (List α)) :
    (x :: xs).join = x ++ xs.join := rfl

theorem join_chunks {α : Type} (n : Nat) :
    ∀ (k : Nat) (l : List α), l.length = k * n →
      ((List.range k).map (fun i => (l.drop (i * n)).take n)).join = l := by
  intro k
  induction k with
  | zero =>
      intro l hl
      rw [Nat.zero_mul] at hl
      rw [List.length_eq_zero] at hl
      subst hl
      simp
  | succ k ih =>
      intro l hl
      rw [List.range_succ_eq_map, List.map_cons, join_cons_eq, List.map_map]
      have hmap : ((List.range k).map
          ((fun i => (l.drop (i * n)).take n) ∘ Nat.succ)) =
          (List.range k).map (fun i => ((l.drop n).drop (i * n)).take n) := by
        apply List.map_congr_left
        intro i _
        simp only [Function.comp_apply, List.drop_drop]
        rw [Nat.succ_mul, Nat.add_comm (i * n) n]
      rw [hmap]
      rw [ih (l.drop n) (by rw [List.length_drop, hl, Nat.succ_mul]; omega)]
      simp

theorem playfairMatrixOf_row (key : List Char) (r : Nat) (hr : r < 5) :
    (playfairMatrixOf key).getD r [] =
      ((playfairUniqueChars key).drop (r * 5)).take 5 := by
  rw [playfairMatrixOf, List.getD_eq_getElem?_getD, List.getElem?_map,
    List.getElem?_range hr]
  rfl

theorem playfairMatrixOf_cell (key : List Char) (r c : Nat)
    (hr : r < 5) (hc : c < 5) :
    ((playfairMatrixOf key).getD r []).getD c ' ' =
      (playfairUniqueChars key).getD (r * 5 + c) ' ' := by
  rw [playfairMatrixOf_row key r hr]
  rw [List.getD_eq_getElem?_getD, List.getD_eq_getElem?_getD]
  rw [List.getElem?_take, if_pos hc, List.getElem?_drop]

theorem playfairMatrixOf_join (key : List Char) :
    (playfairMatrixOf key).join = playfairUniqueChars key := by
  rw [playfairMatrixOf]
  exact join_chunks 5 5 _ (playfairUniqueChars_length key)

theorem find?_eq_some_of_unique {α : Type} (p : α → Bool) :
    ∀ (l : List α) (x : α), x ∈ l → p x = true →
      (∀ y ∈ l, p y = true → y = x) → l.find? p = some x
  | [], x, hx, _, _ => absurd hx (List.not_mem_nil x)
  | a :: rest, x, hx, hpx, huniq => by
      by_cases hpa : p a = true
      · rw [List.find?_cons_of_pos _ hpa]
        rw [huniq a (List.mem_cons_self a rest) hpa]
      · rw [List.find?_cons_of_neg _ hpa]
        rcases List.mem_cons.mp hx with h | h
        · subst h; exact absurd hpx hpa
        · exact find?_eq_some_of_unique p rest x h hpx
            (fun y hy hpy => huniq y (List.mem_cons_of_mem _ hy) hpy)

theorem mem_posList_iff (p : Nat × Nat) :
    p ∈ posList ↔ (p.1 < 5 ∧ p.2 < 5) := by
  rw [posList]
  constructor
  · intro hp
    rw [List.mem_flatMap] at hp
    obtain ⟨r, hr, hp⟩ := hp
    rw [List.mem_map] at hp
    obtain ⟨c, hc, hp⟩ := hp
    rw [List.mem_range] at hr hc
    subst hp
    exact ⟨hr, hc⟩
  · intro ⟨h1, h2⟩
    rw [List.mem_flatMap]
    exact ⟨p.1, List.mem_range.mpr h1,
      List.mem_map.mpr ⟨p.2, List.mem_range.mpr h2, rfl⟩⟩

theorem playfairUniqueChars_getD_inj (key : List Char) (i j : Nat)
    (hi : i < 25) (hj : j < 25)
    (h : (playfairUniqueChars key).getD i ' ' =
      (playfairUniqueChars key).getD j ' ') : i = j := by
  have hlen := playfairUniqueChars_length key
  have hnd : (playfairUniqueChars key).Nodup := nodup_dedupFirst _ _
  have hi' : i < (playfairUniqueChars key).length := by omega
  have hj' : j < (playfairUniqueChars key).length := by omega
  rw [List.getD_eq_getElem _ _ hi', List.getD_eq_getElem _ _ hj'] at h
  have := (List.Nodup.getElem_inj_iff hnd).mp h
  exact this

theorem lookupPos_cell (key : List Char) (r c : Nat) (hr : r < 5) (hc : c < 5) :
    lookupPos (playfairMatrixOf key)
      ((playfairUniqueChars key).getD (r * 5 + c) ' ') = some (r, c) := by
  apply find?_eq_some_of_unique
  · exact (mem_posList_iff (r, c)).mpr ⟨hr, hc⟩
  · rw [decide_eq_true_eq]
    exact playfairMatrixOf_cell key r c hr hc
  · intro y hy hpy
    rw [mem_posList_iff] at hy
    rw [decide_eq_true_eq, playfairMatrixOf_cell key y.1 y.2 hy.1 hy.2] at hpy
    have := playfairUniqueChars_getD_inj key (y.1 * 5 + y.2) (r * 5 + c)
      (by omega) (by omega) hpy
    have h1 : y.1 = r := by omega
    have h2 : y.2 = c := by omega
    exact Prod.ext h1 h2

theorem lookupPos_of_mem_alphabet (key : List Char) (ch : Char)
    (h : ch ∈ playfairAlphabet) :
    ∃ r c, r < 5 ∧ c < 5 ∧
      lookupPos (playfairMatrixOf key) ch = some (r, c) ∧
      ((playfairMatrixOf key).getD r []).getD c ' ' = ch := by
  have hmem : ch ∈ playfairUniqueChars key :=
    (mem_playfairUniqueChars_iff key ch).mpr h
  obtain ⟨i, hi, hch⟩ := List.mem_iff_getElem.mp hmem
  have hlen := playfairUniqueChars_length key
  have hi25 : i < 25 := by omega
  have hgd : (playfairUniqueChars key).getD i ' ' = ch := by
    rw [List.getD_eq_getElem _ _ hi]; exact hch
  have hidx : i / 5 * 5 + i % 5 = i := by omega
  refine ⟨i / 5, i % 5, by omega, by omega, ?_, ?_⟩
  · have hcell := lookupPos_cell key (i / 5) (i % 5) (by omega) (by omega)
    rw [hidx, hgd] at hcell
    exact hcell
  · rw [playfairMatrixOf_cell key _ _ (by omega) (by omega)]
    rw [hidx, hgd]

theorem cell_mem_alphabet (key : List Char) (r c : Nat)
    (hr : r < 5) (hc : c < 5) :
    ((playfairMatrixOf key).getD r []).getD c ' ' ∈ playfairAlphabet := by
  rw [playfairMatrixOf_cell key r c hr hc]
  rw [← mem_playfairUniqueChars_iff key]
  have hlen := playfairUniqueChars_length key
  have hidx : r * 5 + c < (playfairUniqueChars key).length := by omega
  rw [List.getD_eq_getElem _ _ hidx]
  exact List.getElem_mem _

theorem map_fixed_eq_self {α : Type} (f : α → α) (l : List α)
    (h : ∀ x ∈ l, f x = x) : l.map f = l := by
  have h' : ∀ x ∈ l, f x = id x := h
  rw [List.map_congr_left h', List.map_id]

theorem toUpper_eq_self_of_capital (c : Char) (h1 : 65 ≤ c.toNat)
    (h2 : c.toNat ≤ 90) : c.toUpper = c := by
  rw [Char.toUpper]
  rw [if_neg (by omega)]

theorem toUpper_eq_self_of_not_latin (c : Char)
    (h : isLatinLetter c = false) : c.toUpper = c := by
  rw [isLatinLetter] at h
  simp only [Bool.or_eq_false_iff, Bool.and_eq_false_iff,
    decide_eq_false_iff_not, Nat.not_le] at h
  rw [Char.toUpper]
  rw [if_neg (by omega)]

theorem sanitizePlayfair_of_alphabet (l : List Char)
    (h : ∀ c ∈ l, c ∈ playfairAlphabet) : sanitizePlayfair l = l := by
  rw [sanitizePlayfair]
  have hchar : ∀ c ∈ l, 65 ≤ c.toNat ∧ c.toNat ≤ 90 ∧ c.toNat ≠ 74 := by
    intro c hc
    exact (mem_playfairAlphabet_iff c).mp (h c hc)
  rw [map_fixed_eq_self Char.toUpper l
    (fun c hc => toUpper_eq_self_of_capital c (hchar c hc).1 (hchar c hc).2.1)]
  rw [map_fixed_eq_self _ l (fun c hc => by
    rw [if_neg]
    intro hj
    rw [char_eq_iff_toNat] at hj
    exact (hchar c hc).2.2 hj)]
  rw [List.filter_eq_self]
  intro c hc
  rw [Bool.and_eq_true, decide_eq_true_eq, decide_eq_true_eq]
  exact ⟨(hchar c hc).1, (hchar c hc).2.1⟩

theorem sanitizePlayfair_mem_alphabet (text : List Char) (c : Char)
    (hc : c ∈ sanitizePlayfair text) : c ∈ playfairAlphabet := by
  rw [sanitizePlayfair, List.mem_filter] at hc
  obtain ⟨hmem, hrange⟩ := hc
  rw [Bool.and_eq_true, decide_eq_true_eq, decide_eq_true_eq] at hrange
  rw [mem_playfairAlphabet_iff]
  refine ⟨hrange.1, hrange.2, ?_⟩
  rw [List.mem_map] at hmem
  obtain ⟨b, _, hb⟩ := hmem
  intro h74
  have : c = 'J' := by rw [char_eq_iff_toNat]; exact h74
  rw [this] at hb
  by_cases hbj : b = 'J'
  · rw [if_pos hbj] at hb; exact absurd hb (by decide)
  · rw [if_neg hbj] at hb; exact hbj hb

theorem foldl_invariant {α β : Type} (P : β → Prop) (step : β → α → β) :
    ∀ (l : List α) (init : β), P init →
      (∀ b a, a ∈ l → P b → P (step b a)) → P (l.foldl step init)
  | [], init, h0, _ => h0
  | a :: rest, init, h0, hstep =>
      foldl_invariant P step rest (step init a)
        (hstep init a (List.mem_cons_self a rest) h0)
        (fun b x hx hb => hstep b x (List.mem_cons_of_mem _ hx) hb)

theorem foldl_length_ge {β : Type} (step : List β → Nat → List β)
    (hstep : ∀ acc a, acc.length + 1 ≤ (step acc a).length) :
    ∀ (l : List Nat) (init : List β),
      init.length + l.length ≤ (l.foldl step init).length
  | [], init => Nat.le_refl _
  | a :: rest, init => by
      have h1 := foldl_length_ge step hstep rest (step init a)
      have h2 := hstep init a
      simp only [List.foldl_cons, List.length_cons]
      omega

theorem preparePlayfairBody_even (res : List Char) :
    (preparePlayfairBody res).length % 2 = 0 := by
  rw [preparePlayfairBody]
  set prepared := (List.range res.length).foldl _ [] with hp
  by_cases h : prepared.length % 2 = 1
  · rw [if_pos h]
    rw [List.length_append, List.length_singleton]
    omega
  · rw [if_neg h]
    omega

theorem preparePlayfairBody_subset (res : List Char) (c : Char)
    (hc : c ∈ preparePlayfairBody res) : c ∈ res ∨ c = 'X' := by
  rw [preparePlayfairBody] at hc
  have hfold : ∀ x ∈ (List.range res.length).foldl
      (fun prepared i =>
        let prepared := prepared ++ [res.getD i ' ']
        if prepared.length % 2 = 1 then
          if i + 1 < res.length ∧ res.getD i ' ' = res.getD (i + 1) ' ' then
            prepared ++ ['X']
          else prepared
        else prepared)
      [], x ∈ res ∨ x = 'X' := by
    apply foldl_invariant (fun acc => ∀ x ∈ acc, x ∈ res ∨ x = 'X')
    · intro x hx
      exact absurd hx (List.not_mem_nil x)
    · intro b i hi hb
      have hgetD : res.getD i ' ' ∈ res := by
        rw [List.mem_range] at hi
        rw [List.getD_eq_getElem _ _ hi]
        exact List.getElem_mem _
      intro x hx
      simp only at hx
      split at hx
      · split at hx
        · rcases List.mem_append.mp hx with hx | hx
          · rcases List.mem_append.mp hx with hx | hx
            · exact hb x hx
            · rw [List.mem_singleton] at hx
              subst hx
              exact Or.inl hgetD
          · rw [List.mem_singleton] at hx
            exact Or.inr hx
        · rcases List.mem_append.mp hx with hx | hx
          · exact hb x hx
          · rw [List.mem_singleton] at hx
            subst hx
            exact Or.inl hgetD
      · rcases List.mem_append.mp hx with hx | hx
        · exact hb x hx
        · rw [List.mem_singleton] at hx
          subst hx
          exact Or.inl hgetD
  split at hc
  · rcases List.mem_append.mp hc with hc | hc
    · exact hfold c hc
    · rw [List.mem_singleton] at hc
      exact Or.inr hc
  · exact hfold c hc

theorem preparePlayfairBody_ne_nil (res : List Char) (h : res ≠ []) :
    preparePlayfairBody res ≠ [] := by
  rw [preparePlayfairBody]
  have hlen : 1 ≤ res.length := by
    cases res
    · exact absurd rfl h
    · simp
  have hfold := foldl_length_ge
    (fun prepared i =>
      let prepared := prepared ++ [res.getD i ' ']
      if prepared.length % 2 = 1 then
        if i + 1 < res.length ∧ res.getD i ' ' = res.getD (i + 1) ' ' then
          prepared ++ ['X']
        else prepared
      else prepared)
    (by
      intro acc a
      simp only
      split
      · split
        · simp [List.length_append]
        · simp [List.length_append]
      · simp [List.length_append])
    (List.range res.length) []
  rw [List.length_range, List.length_nil] at hfold
  intro hnil
  have h0 := congrArg List.length hnil
  rw [List.length_nil] at h0
  split at h0
  · rw [List.length_append, List.length_singleton] at h0
    omega
  · omega

/-- C6: for every key string, matrix construction succeeds and yields a
5×5 grid whose cells are exactly the 25 letters of the J-less alphabet,
each once; for a key without letters the grid is the plain alphabet laid
out row-major. -/
theorem createPlayfairMatrix_complete (key : List Char) :
    ∃ m, createPlayfairMatrix key = Except.ok m ∧
      m.length = 5 ∧ (∀ row ∈ m, row.length = 5) ∧
      m.join.Perm playfairAlphabet ∧
      ((∀ c ∈ key, isLatinLetter c = false) →
        m = (List.range 5).map
          (fun i => (playfairAlphabet.drop (i * 5)).take 5)) := by
  have hlen := playfairUniqueChars_length key
  refine ⟨playfairMatrixOf key, createPlayfairMatrix_eq key, by
    simp [playfairMatrixOf], ?_, ?_, ?_⟩
  · intro row hrow
    rw [playfairMatrixOf, List.mem_map] at hrow
    obtain ⟨i, hi, hrow⟩ := hrow
    rw [List.mem_range] at hi
    subst hrow
    rw [List.length_take, List.length_drop, hlen]
    omega
  · rw [playfairMatrixOf_join]
    exact playfairUniqueChars_perm key
  · intro hnol
    have hkey : playfairSanitizedKey key = playfairAlphabet := by
      rw [playfairSanitizedKey, List.filter_append]
      have h1 : (((key.map Char.toUpper).map
          (fun c => if c = 'J' then 'I' else c)).filter
          (fun c => 65 ≤ c.toNat && c.toNat ≤ 90)) = [] := by
        rw [List.filter_eq_nil_iff]
        intro c hc
        rw [List.mem_map] at hc
        obtain ⟨b, hb, hbc⟩ := hc
        rw [List.mem_map] at hb
        obtain ⟨a, ha, hab⟩ := hb
        have hna := hnol a ha
        have hup : a.toUpper = a := toUpper_eq_self_of_not_latin a hna
        rw [hup] at hab
        rw [← hab] at hbc
        have hanej : ¬(a = 'J') := by
          intro hj
          rw [hj, isLatinLetter] at hna
          simp at hna
        rw [if_neg hanej] at hbc
        subst hbc
        rw [isLatinLetter] at hna
        simp only [Bool.or_eq_false_iff, Bool.and_eq_false_iff,
          decide_eq_false_iff_not, Nat.not_le] at hna
        simp only [Bool.and_eq_true, decide_eq_true_eq, not_and, Bool.not_eq_true,
          Bool.and_eq_false_iff, decide_eq_false_iff_not, Nat.not_le]
        omega
      rw [h1, List.nil_append, List.filter_eq_self]
      intro c hc
      rw [mem_playfairAlphabet_iff] at hc
      rw [Bool.and_eq_true, decide_eq_true_eq, decide_eq_true_eq]
      exact ⟨hc.1, hc.2.1⟩
    have huniq : playfairUniqueChars key = playfairAlphabet := by
      rw [playfairUniqueChars, hkey]
      exact dedupFirst_eq_self playfairAlphabet [] (by decide)
        (fun x _ hx => List.not_mem_nil x hx)
    rw [playfairMatrixOf, huniq]

/-- Witness for C6 at the letterless key of the spec's scenario. -/
theorem createPlayfairMatrix_complete_witness :
    ∃ m, createPlayfairMatrix "!!!".toList = Except.ok m ∧
      m.length = 5 ∧ (∀ row ∈ m, row.length = 5) ∧
      m.join.Perm playfairAlphabet ∧
      ((∀ c ∈ "!!!".toList, isLatinLetter c = false) →
        m = (List.range 5).map
          (fun i => (playfairAlphabet.drop (i * 5)).take 5)) :=
  createPlayfairMatrix_complete "!!!".toList

/-- C3: the classical Playfair reference example. -/
theorem playfairCipher_classical_example :
    playfairCipher "HIDETHEGOLDINTHETREESTUMP".toList
      "PLAYFAIREXAMPLE".toList .encrypt =
      .ok "BMODZBXDNABEKUDMUIXMMOUVIF".toList := by
  rfl

/-- C10: with no Latin letter left after sanitization, `playfairCipher`
throws the invalid-key error in both modes (it never returns an empty
string). -/
theorem playfairCipher_no_letters_error (text key : List Char) (mode : Mode)
    (h : sanitizePlayfair text = []) :
    playfairCipher text key mode = .error .invalidKey := by
  rw [playfairCipher, createPlayfairMatrix_eq]
  show (match mode with
    | Mode.encrypt => (preparePlayfairText text).bind
        (playfairPairs (playfairMatrixOf key) .encrypt)
    | Mode.decrypt =>
        let prepared := sanitizePlayfair text
        if prepared = [] then Except.error CipherError.invalidKey
        else if prepared.length % 2 ≠ 0 then Except.error CipherError.invalidKey
        else playfairPairs (playfairMatrixOf key) .decrypt prepared) =
    Except.error CipherError.invalidKey
  cases mode
  · rw [preparePlayfairText]
    simp only [h, if_pos]
    rfl
  · simp only [h, if_pos]

/-- Witness for C10 on a letterless input. -/
theorem playfairCipher_no_letters_error_witness :
    playfairCipher "123 !?".toList "KEY".toList .encrypt =
      .error .invalidKey :=
  playfairCipher_no_letters_error "123 !?".toList "KEY".toList .encrypt (by rfl)

theorem lookupPos_of_cell (key : List Char) (r c : Nat) (hr : r < 5)
    (hc : c < 5) :
    lookupPos (playfairMatrixOf key)
      (((playfairMatrixOf key).getD r []).getD c ' ') = some (r, c) := by
  rw [playfairMatrixOf_cell key r c hr hc]
  exact lookupPos_cell key r c hr hc

theorem playfairPairs_ok (key : List Char) (mode : Mode) :
    ∀ l : List Char, (∀ c ∈ l, c ∈ playfairAlphabet) → l.length % 2 = 0 →
      ∃ out, playfairPairs (playfairMatrixOf key) mode l = .ok out
  | [], _, _ => ⟨[], rfl⟩
  | [x], hmem, hlen => by
      exfalso
      simp at hlen
  | a :: b :: rest, hmem, hlen => by
      obtain ⟨r1, c1, hr1, hc1, hla, hca⟩ := lookupPos_of_mem_alphabet key a
        (hmem a (List.mem_cons_self _ _))
      obtain ⟨r2, c2, hr2, hc2, hlb, hcb⟩ := lookupPos_of_mem_alphabet key b
        (hmem b (List.mem_cons_of_mem _ (List.mem_cons_self _ _)))
      obtain ⟨out, hout⟩ := playfairPairs_ok key mode rest
        (fun c hc => hmem c (List.mem_cons_of_mem _ (List.mem_cons_of_mem _ hc)))
        (by simp at hlen; omega)
      rw [playfairPairs, hla, hlb, hout]
      exact ⟨_, rfl⟩

/-- C9: under `playfairCipher`'s own input preconditions (some letter
remains after sanitization; even sanitized length when decrypting) the
defensive `CharacterNotFound` branch of the matrix lookup is unreachable. -/
theorem playfairCipher_never_characterNotFound (text key : List Char)
    (mode : Mode) (hletters : sanitizePlayfair text ≠ [])
    (heven : mode = .decrypt → (sanitizePlayfair text).length % 2 = 0) :
    playfairCipher text key mode ≠ .error .characterNotFound := by
  rw [playfairCipher, createPlayfairMatrix_eq]
  show (match mode with
    | Mode.encrypt => (preparePlayfairText text).bind
        (playfairPairs (playfairMatrixOf key) .encrypt)
    | Mode.decrypt =>
        let prepared := sanitizePlayfair text
        if prepared = [] then Except.error CipherError.invalidKey
        else if prepared.length % 2 ≠ 0 then Except.error CipherError.invalidKey
        else playfairPairs (playfairMatrixOf key) .decrypt prepared) ≠
    Except.error CipherError.characterNotFound
  cases mode
  · rw [preparePlayfairText]
    rw [if_neg hletters]
    have hsub : ∀ c ∈ preparePlayfairBody (sanitizePlayfair text),
        c ∈ playfairAlphabet := by
      intro c hc
      rcases preparePlayfairBody_subset _ c hc with h | h
      · exact sanitizePlayfair_mem_alphabet text c h
      · rw [h]; decide
    obtain ⟨out, hout⟩ := playfairPairs_ok key .encrypt
      (preparePlayfairBody (sanitizePlayfair text)) hsub
      (preparePlayfairBody_even _)
    show Except.bind _ _ ≠ _
    rw [Except.bind, hout]
    intro h
    exact Except.noConfusion h
  · simp only
    rw [if_neg hletters, if_neg (by simp [heven rfl])]
    obtain ⟨out, hout⟩ := playfairPairs_ok key .decrypt
      (sanitizePlayfair text)
      (fun c hc => sanitizePlayfair_mem_alphabet text c hc)
      (heven rfl)
    rw [hout]
    intro h
    exact Except.noConfusion h

/-- Witness for C9 on a concrete encryption. -/
theorem playfairCipher_never_characterNotFound_witness :
    playfairCipher "hello".toList "monarchy".toList .encrypt ≠
      .error .characterNotFound :=
  playfairCipher_never_characterNotFound "hello".toList "monarchy".toList
    .encrypt (by decide) (by intro h; exact Mode.noConfusion h)

theorem playfairPairs_cons_cons (m : List (List Char)) (mode : Mode)
    (a b : Char) (rest : List Char) (r1 c1 r2 c2 : Nat)
    (hla : lookupPos m a = some (r1, c1))
    (hlb : lookupPos m b = some (r2, c2)) :
    playfairPairs m mode (a :: b :: rest) =
      (playfairPairs m mode rest).map (fun out =>
        (if r1 = r2 then
          let sh := if mode = .encrypt then 1 else 4
          [(m.getD r1 []).getD ((c1 + sh) % 5) ' ',
           (m.getD r2 []).getD ((c2 + sh) % 5) ' ']
        else if c1 = c2 then
          let sh := if mode = .encrypt then 1 else 4
          [(m.getD ((r1 + sh) % 5) []).getD c1 ' ',
           (m.getD ((r2 + sh) % 5) []).getD c2 ' ']
        else
          [(m.getD r1 []).getD c2 ' ', (m.getD r2 []).getD c1 ' ']) ++ out) := by
  rw [playfairPairs, hla, hlb]

theorem playfairPairs_roundtrip (key : List Char) :
    ∀ l : List Char, (∀ c ∈ l, c ∈ playfairAlphabet) → l.length % 2 = 0 →
      ∃ out, playfairPairs (playfairMatrixOf key) .encrypt l = .ok out ∧
        out.length = l.length ∧ (∀ c ∈ out, c ∈ playfairAlphabet) ∧
        playfairPairs (playfairMatrixOf key) .decrypt out = .ok l
  | [], _, _ => ⟨[], rfl, rfl, fun c hc => absurd hc (List.not_mem_nil c), rfl⟩
  | [x], _, hlen => by exfalso; simp at hlen
  | a :: b :: rest, hmem, hlen => by
      obtain ⟨r1, c1, hr1, hc1, hla, hca⟩ := lookupPos_of_mem_alphabet key a
        (hmem a (List.mem_cons_self _ _))
      obtain ⟨r2, c2, hr2, hc2, hlb, hcb⟩ := lookupPos_of_mem_alphabet key b
        (hmem b (List.mem_cons_of_mem _ (List.mem_cons_self _ _)))
      obtain ⟨out, hout, hlen_out, hmem_out, hdec⟩ :=
        playfairPairs_roundtrip key rest
          (fun c hc => hmem c (List.mem_cons_of_mem _ (List.mem_cons_of_mem _ hc)))
          (by simp at hlen; omega)
      have hshe : (if (Mode.encrypt = Mode.encrypt) then 1 else 4) = 1 := rfl
      have hshd : (if (Mode.decrypt = Mode.encrypt) then 1 else 4) = 4 := rfl
      by_cases hrow : r1 = r2
      · subst hrow
        refine ⟨((playfairMatrixOf key).getD r1 []).getD ((c1 + 1) % 5) ' ' ::
            ((playfairMatrixOf key).getD r1 []).getD ((c2 + 1) % 5) ' ' :: out,
          ?_, by simp [hlen_out], ?_, ?_⟩
        · rw [playfairPairs_cons_cons _ .encrypt a b rest r1 c1 r1 c2 hla hlb,
            hout]
          simp only [Except.map, hshe, if_pos rfl]
          rfl
        · intro c hc
          rcases List.mem_cons.mp hc with hc | hc
          · subst hc; exact cell_mem_alphabet key r1 _ hr1 (by omega)
          rcases List.mem_cons.mp hc with hc | hc
          · subst hc; exact cell_mem_alphabet key r1 _ hr1 (by omega)
          · exact hmem_out c hc
        · rw [playfairPairs_cons_cons _ .decrypt _ _ out r1 ((c1 + 1) % 5)
            r1 ((c2 + 1) % 5)
            (lookupPos_of_cell key r1 _ hr1 (by omega))
            (lookupPos_of_cell key r1 _ hr1 (by omega)), hdec]
          simp only [Except.map, hshd, if_pos rfl]
          have hidx1 : ((c1 + 1) % 5 + 4) % 5 = c1 := by omega
          have hidx2 : ((c2 + 1) % 5 + 4) % 5 = c2 := by omega
          rw [hidx1, hidx2, hca, hcb]
          rfl
      · by_cases hcol : c1 = c2
        · subst hcol
          refine ⟨((playfairMatrixOf key).getD ((r1 + 1) % 5) []).getD c1 ' ' ::
              ((playfairMatrixOf key).getD ((r2 + 1) % 5) []).getD c1 ' ' :: out,
            ?_, by simp [hlen_out], ?_, ?_⟩
          · rw [playfairPairs_cons_cons _ .encrypt a b rest r1 c1 r2 c1 hla hlb,
              hout]
            simp only [Except.map, hshe, if_neg hrow, if_pos rfl]
            rfl
          · intro c hc
            rcases List.mem_cons.mp hc with hc | hc
            · subst hc; exact cell_mem_alphabet key _ c1 (by omega) hc1
            rcases List.mem_cons.mp hc with hc | hc
            · subst hc; exact cell_mem_alphabet key _ c1 (by omega) hc1
            · exact hmem_out c hc
          · have hrow' : (r1 + 1) % 5 ≠ (r2 + 1) % 5 := by omega
            rw [playfairPairs_cons_cons _ .decrypt _ _ out ((r1 + 1) % 5) c1
              ((r2 + 1) % 5) c1
              (lookupPos_of_cell key _ c1 (by omega) hc1)
              (lookupPos_of_cell key _ c1 (by omega) hc1), hdec]
            simp only [Except.map, hshd, if_neg hrow', if_pos rfl]
            have hidx1 : ((r1 + 1) % 5 + 4) % 5 = r1 := by omega
            have hidx2 : ((r2 + 1) % 5 + 4) % 5 = r2 := by omega
            rw [hidx1, hidx2, hca, hcb]
            rfl
        · refine ⟨((playfairMatrixOf key).getD r1 []).getD c2 ' ' ::
              ((playfairMatrixOf key).getD r2 []).getD c1 ' ' :: out,
            ?_, by simp [hlen_out], ?_, ?_⟩
          · rw [playfairPairs_cons_cons _ .encrypt a b rest r1 c1 r2 c2 hla hlb,
              hout]
            simp only [Except.map, if_neg hrow, if_neg hcol]
            rfl
          · intro c hc
            rcases List.mem_cons.mp hc with hc | hc
            · subst hc; exact cell_mem_alphabet key r1 c2 hr1 hc2
            rcases List.mem_cons.mp hc with hc | hc
            · subst hc; exact cell_mem_alphabet key r2 c1 hr2 hc1
            · exact hmem_out c hc
          · have hcol' : c2 ≠ c1 := fun h => hcol h.symm
            rw [playfairPairs_cons_cons _ .decrypt _ _ out r1 c2 r2 c1
              (lookupPos_of_cell key r1 c2 hr1 hc2)
              (lookupPos_of_cell key r2 c1 hr2 hc1), hdec]
            simp only [Except.map, if_neg hrow, if_neg hcol']
            rw [hca, hcb]
            rfl

/-- C2 counterexample: `"XXXX"` is encrypt-prepared — it is exactly
`preparePlayfairText "XX"` (even length, filler inserted) — and `"A"` is
an alphabetic key, yet encrypt-then-decrypt does not give back `"XXXX"`:
the encrypting call re-prepares the text, inserting further filler. -/
theorem playfairCipher_roundtrip_counterexample :
    preparePlayfairText "XX".toList = .ok "XXXX".toList ∧
    (∀ c ∈ "A".toList, isLatinLetter c = true) ∧
    (playfairCipher "XXXX".toList "A".toList .encrypt).bind
      (fun ct => playfairCipher ct "A".toList .decrypt) ≠
      .ok "XXXX".toList := by
  refine ⟨by rfl, by decide, ?_⟩
  intro h
  rw [show (playfairCipher "XXXX".toList "A".toList .encrypt).bind
      (fun ct => playfairCipher ct "A".toList .decrypt) =
      Except.ok "XXXXXXXX".toList from rfl] at h
  injection h with h
  exact absurd h (by decide)

/-- C2 (amended): for every alphabetic key and every text that the
encryption-side preparation leaves unchanged (even length with filler
already inserted in final prepared form), decrypting the encryption
returns the text exactly. -/
theorem playfairCipher_roundtrip_prepared (key t : List Char)
    (hkey : ∀ c ∈ key, isLatinLetter c = true)
    (ht : preparePlayfairText t = .ok t) :
    (playfairCipher t key .encrypt).bind
      (fun ct => playfairCipher ct key .decrypt) = .ok t := by
  rw [preparePlayfairText] at ht
  by_cases hnil : sanitizePlayfair t = []
  · rw [if_pos hnil] at ht
    exact absurd ht (by intro h; exact Except.noConfusion h)
  rw [if_neg hnil] at ht
  have hbody : preparePlayfairBody (sanitizePlayfair t) = t := by
    injection ht
  have hmemt : ∀ c ∈ t, c ∈ playfairAlphabet := by
    intro c hc
    rw [← hbody] at hc
    rcases preparePlayfairBody_subset _ c hc with h | h
    · exact sanitizePlayfair_mem_alphabet t c h
    · rw [h]; decide
  have hteven : t.length % 2 = 0 := by
    rw [← hbody]; exact preparePlayfairBody_even _
  have htne : t ≠ [] := by
    rw [← hbody]; exact preparePlayfairBody_ne_nil _ hnil
  obtain ⟨out, hout, hlen_out, hmem_out, hdec⟩ :=
    playfairPairs_roundtrip key t hmemt hteven
  have henc : playfairCipher t key .encrypt = .ok out := by
    rw [playfairCipher, createPlayfairMatrix_eq]
    show (preparePlayfairText t).bind
      (playfairPairs (playfairMatrixOf key) .encrypt) = .ok out
    rw [preparePlayfairText, if_neg hnil, hbody]
    exact hout
  have houtne : out ≠ [] := by
    intro h
    rw [h, List.length_nil] at hlen_out
    exact htne (List.length_eq_zero.mp hlen_out.symm)
  have hso : sanitizePlayfair out = out :=
    sanitizePlayfair_of_alphabet out hmem_out
  have hdecfull : playfairCipher out key .decrypt = .ok t := by
    rw [playfairCipher, createPlayfairMatrix_eq]
    show (if sanitizePlayfair out = [] then Except.error CipherError.invalidKey
      else if (sanitizePlayfair out).length % 2 ≠ 0 then
        Except.error CipherError.invalidKey
      else playfairPairs (playfairMatrixOf key) .decrypt
        (sanitizePlayfair out)) = .ok t
    rw [hso, if_neg houtne, if_neg (by omega)]
    exact hdec
  rw [henc]
  show playfairCipher out key .decrypt = .ok t
  exact hdecfull

/-- Witness for the amended C2 on a concrete prepared text. -/
theorem playfairCipher_roundtrip_prepared_witness :
    (playfairCipher "HELO".toList "A".toList .encrypt).bind
      (fun ct => playfairCipher ct "A".toList .decrypt) =
      .ok "HELO".toList :=
  playfairCipher_roundtrip_prepared "A".toList "HELO".toList
    (by decide) (by rfl)

-- ## Rail Fence cipher

/-- Cell of the Rail Fence decrypt grid: `null`, the `"*"` marker, or a
filled character. -/
inductive RFCell where
  | empty
  | mark
  | chr (c : Char)
deriving DecidableEq, Repr

/-- The zig-zag state update shared by all three Rail Fence loops: move
by `dir`, then reverse direction on reaching the top or bottom rail. -/
def zigNext (rails : Nat) (rail dir : Int) : Int × Int :=
  (rail + dir,
    if rail + dir = 0 ∨ rail + dir = (rails : Int) - 1 then -dir else dir)

/-- The zig-zag state before processing position `i` (start `(0, 1)`). -/
def zigState (rails : Nat) : Nat → Int × Int
  | 0 => (0, 1)
  | n + 1 => zigNext rails (zigState rails n).1 (zigState rails n).2

/-- The rail the zig-zag visits at position `i`. -/
def railOf (rails : Nat) (i : Nat) : Int := (zigState rails i).1

/-- One character of `railFenceEncrypt`'s writing loop. -/
def rfEncStep (rails : Nat) (st : (Int → List Char) × Int × Int)
    (ch : Char) : (Int → List Char) × Int × Int :=
  ((fun r => if r = st.2.1 then st.1 r ++ [ch] else st.1 r),
    zigNext rails st.2.1 st.2.2)

/-- `railFenceEncrypt(text, rails)`.  `rails = none` models `NaN`. -/
def railFenceEncrypt (text : List Char) (rails : Option Int) :
    Except CipherError (List Char) :=
  match rails with
  | none => .error .invalidKey
  | some rl =>
    if rl < 2 then .error .invalidKey
    else
      let fence := (text.foldl (rfEncStep rl.toNat) ((fun _ => []), 0, 1)).1
      .ok (((List.range rl.toNat).map
        (fun (r : Nat) => fence (r : Int))).flatten)

/-- One step of decrypt pass 1: mark the zig-zag path. -/
def rfMarkStep (rails : Nat) (st : (Int → Nat → RFCell) × Int × Int)
    (i : Nat) : (Int → Nat → RFCell) × Int × Int :=
  ((fun r c => if r = st.2.1 ∧ c = i then .mark else st.1 r c),
    zigNext rails st.2.1 st.2.2)

/-- One step of decrypt pass 2: fill the next marked cell (row-major
order) with the next unused ciphertext character. -/
def rfFillStep (cipherText : List Char)
    (st : (Int → Nat → RFCell) × Nat) (rc : Int × Nat) :
    (Int → Nat → RFCell) × Nat :=
  if st.1 rc.1 rc.2 = RFCell.mark ∧ st.2 < cipherText.length then
    ((fun r c => if r = rc.1 ∧ c = rc.2 then
        .chr (cipherText.getD st.2 ' ') else st.1 r c), st.2 + 1)
  else st

/-- JS string concatenation `result += cell` on a cell value (`null`
prints as `"null"`, the marker as `"*"`; both cases are unreachable). -/
def cellChars : RFCell → List Char
  | .empty => 'n' :: 'u' :: 'l' :: 'l' :: []
  | .mark => ['*']
  | .chr c => [c]

/-- One step of decrypt pass 3: read the visited cell along the zig-zag. -/
def rfReadStep (rails : Nat) (grid : Int → Nat → RFCell)
    (st : List Char × Int × Int) (i : Nat) : List Char × Int × Int :=
  (st.1 ++ cellChars (grid st.2.1 i), zigNext rails st.2.1 st.2.2)

/-- `railFenceDecrypt(cipherText, rails)` with its three passes. -/
def railFenceDecrypt (cipherText : List Char) (rails : Option Int) :
    Except CipherError (List Char) :=
  match rails with
  | none => .error .invalidKey
  | some rl =>
    if rl < 2 then .error .invalidKey
    else if cipherText = [] then .ok []
    else
      let rails := rl.toNat
      let len := cipherText.length
      let marked := ((List.range len).foldl (rfMarkStep rails)
        ((fun _ _ => .empty), 0, 1)).1
      let filled := (((List.range rails).flatMap
          (fun (r : Nat) => (List.range len).map
            (fun c => ((r : Int), c)))).foldl
        (rfFillStep cipherText) (marked, 0)).1
      .ok ((List.range len).foldl (rfReadStep rails filled) ([], 0, 1)).1

-- ### Rail Fence helper lemmas

theorem zig_invariant (rails : Nat) (h : 2 ≤ rails) : ∀ n : Nat,
    ((zigState rails n).2 = 1 ∨ (zigState rails n).2 = -1) ∧
    0 ≤ (zigState rails n).1 ∧ (zigState rails n).1 ≤ (rails : Int) - 1 ∧
    0 ≤ (zigState rails n).1 + (zigState rails n).2 ∧
    (zigState rails n).1 + (zigState rails n).2 ≤ (rails : Int) - 1 := by
  intro n
  induction n with
  | zero =>
      refine ⟨Or.inl rfl, ?_, ?_, ?_, ?_⟩ <;>
        simp only [zigState] <;> omega
  | succ n ih =>
      obtain ⟨hd, h0, h1, h2, h3⟩ := ih
      simp only [zigState, zigNext]
      by_cases hb : (zigState rails n).1 + (zigState rails n).2 = 0 ∨
          (zigState rails n).1 + (zigState rails n).2 = (rails : Int) - 1
      · rw [if_pos hb]
        rcases hd with hd | hd <;> rcases hb with hb | hb <;>
          exact ⟨by omega, by omega, by omega, by omega, by omega⟩
      · rw [if_neg hb]
        push_neg at hb
        exact ⟨hd, by omega, by omega, by omega, by omega⟩

theorem railOf_bounds (rails : Nat) (h : 2 ≤ rails) (i : Nat) :
    0 ≤ railOf rails i ∧ railOf rails i ≤ (rails : Int) - 1 := by
  obtain ⟨_, h0, h1, _, _⟩ := zig_invariant rails h i
  exact ⟨h0, h1⟩

theorem rfEnc_fold_char (rails : Nat) :
    ∀ (l : List Char) (k : Nat) (f : Int → List Char) (r : Int),
      (l.foldl (rfEncStep rails) (f, zigState rails k)).1 r =
        f r ++ (((List.range l.length).filter
          (fun i => railOf rails (k + i) = r)).map (fun i => l.getD i ' '))
  | [], k, f, r => by simp
  | c :: l', k, f, r => by
      rw [List.foldl_cons]
      have hstep : rfEncStep rails (f, zigState rails k) c =
          ((fun r' => if r' = (zigState rails k).1 then f r' ++ [c] else f r'),
            zigState rails (k + 1)) := rfl
      rw [hstep]
      rw [rfEnc_fold_char rails l' (k + 1) _ r]
      simp only [List.length_cons, List.range_succ_eq_map, List.filter_cons]
      rw [List.filter_map]
      have hpred : ((fun i => decide (railOf rails (k + i) = r)) ∘ Nat.succ) =
          (fun i => decide (railOf rails (k + 1 + i) = r)) := by
        funext i
        simp only [Function.comp_apply]
        rw [show k + (i + 1) = k + 1 + i from by omega]
      rw [hpred]
      by_cases hz : railOf rails k = r
      · have hz' : r = (zigState rails k).1 := hz.symm
        rw [if_pos hz']
        have hd : decide (railOf rails (k + 0) = r) = true := by
          rw [Nat.add_zero]; exact decide_eq_true hz
        rw [if_pos hd]
        rw [List.map_cons, List.map_map]
        have hget : ((fun i => (c :: l').getD i ' ') ∘ Nat.succ) =
            (fun i => l'.getD i ' ') := rfl
        rw [hget]
        simp only [List.getD_cons_zero]
        rw [List.append_assoc]
        rfl
      · have hz' : ¬(r = (zigState rails k).1) := fun h => hz h.symm
        rw [if_neg hz']
        have hd : ¬(decide (railOf rails (k + 0) = r) = true) := by
          rw [Nat.add_zero]
          simp only [decide_eq_true_eq]
          exact hz
        rw [if_neg hd]
        rw [List.map_map]
        have hget : ((fun i => (c :: l').getD i ' ') ∘ Nat.succ) =
            (fun i => l'.getD i ' ') := rfl
        rw [hget]

theorem railFenceEncrypt_eq (t : List Char) (rl : Int) (h : 2 ≤ rl) :
    railFenceEncrypt t (some rl) = .ok (((List.range rl.toNat).map
      (fun (r : Nat) => ((List.range t.length).filter
        (fun i => railOf rl.toNat i = (r : Int))).map
        (fun i => t.getD i ' '))).flatten) := by
  rw [railFenceEncrypt]
  rw [if_neg (by omega)]
  show Except.ok (((List.range rl.toNat).map (fun (r : Nat) =>
      (t.foldl (rfEncStep rl.toNat) ((fun _ => []), 0, 1)).1 (r : Int))).flatten) = _
  congr 1
  congr 1
  apply List.map_congr_left
  intro r _
  have hthis := rfEnc_fold_char rl.toNat t 0 (fun _ => []) (r : Int)
  have hzero : (zigState rl.toNat 0) = ((0 : Int), (1 : Int)) := rfl
  rw [hzero] at hthis
  rw [hthis]
  rw [List.nil_append]
  congr 1
  apply List.filter_congr
  intro i _
  rw [Nat.zero_add]

/-- Marks laid by decrypt pass 1: the zig-zag path cell of each column. -/
def rfMarkGrid (rails len : Nat) : Int → Nat → RFCell :=
  fun r c => if c < len ∧ railOf rails c = r then .mark else .empty

/-- Number of marked cells in row `r` among columns `< c`. -/
def rfRank (rails : Nat) (c : Nat) (r : Int) : Nat :=
  ((List.range c).filter (fun i => railOf rails i = r)).length

/-- Number of marked cells in all rows `< r`. -/
def rfPrefixCount (rails len : Nat) (r : Int) : Nat :=
  ((List.range len).filter (fun i => railOf rails i < r)).length

theorem length_filter_or {α : Type} (p q : α → Bool) :
    ∀ l : List α, (∀ i ∈ l, ¬(p i = true ∧ q i = true)) →
      (l.filter (fun i => p i || q i)).length =
        (l.filter p).length + (l.filter q).length
  | [], _ => rfl
  | a :: l, hdisj => by
      have ih := length_filter_or p q l
        (fun i hi => hdisj i (List.mem_cons_of_mem _ hi))
      have hda := hdisj a (List.mem_cons_self _ _)
      simp only [List.filter_cons]
      by_cases hp : p a = true
      · have hq : ¬(q a = true) := fun h => hda ⟨hp, h⟩
        simp only [hp, Bool.true_or, if_pos, List.length_cons, ih]
        rw [if_neg (by simp [hq])]
        omega
      · simp only [Bool.not_eq_true] at hp
        simp only [hp, Bool.false_or]
        by_cases hq : q a = true
        · simp only [hq, if_pos, List.length_cons, ih]
          rw [if_neg (by simp [hp])]
          omega
        · simp only [Bool.not_eq_true] at hq
          simp [hp, hq, ih]

theorem rfPrefixCount_succ (rails len : Nat) (r : Int) :
    rfPrefixCount rails len (r + 1) =
      rfPrefixCount rails len r + rfRank rails len r := by
  rw [rfPrefixCount, rfPrefixCount, rfRank]
  have hcongr : ∀ i ∈ List.range len,
      (decide (railOf rails i < r + 1)) =
        ((fun i => decide (railOf rails i < r)) i ||
         (fun i => decide (railOf rails i = r)) i) := by
    intro i _
    have hiff : (railOf rails i < r + 1) ↔
        (railOf rails i < r ∨ railOf rails i = r) := by omega
    rw [decide_eq_decide.mpr hiff]
    · simp
    · infer_instance
  rw [List.filter_congr hcongr]
  exact length_filter_or _ _ (List.range len) (fun i _ => by
    simp only [decide_eq_true_eq]
    omega)

theorem rfPrefixCount_zero (rails len : Nat) (h2 : 2 ≤ rails) :
    rfPrefixCount rails len 0 = 0 := by
  rw [rfPrefixCount]
  rw [List.filter_eq_nil_iff.mpr, List.length_nil]
  intro i _
  simp only [decide_eq_true_eq, Int.not_lt]
  exact (railOf_bounds rails h2 i).1

theorem rfPrefixCount_rails (rails len : Nat) (h2 : 2 ≤ rails) :
    rfPrefixCount rails len (rails : Int) = len := by
  rw [rfPrefixCount]
  rw [List.filter_eq_self.mpr, List.length_range]
  intro i _
  simp only [decide_eq_true_eq]
  have := (railOf_bounds rails h2 i).2
  omega

theorem rfPrefixCount_le (rails len : Nat) (r : Int) :
    rfPrefixCount rails len r ≤ len := by
  rw [rfPrefixCount]
  calc ((List.range len).filter _).length ≤ (List.range len).length :=
        List.length_filter_le _ _
    _ = len := List.length_range len

theorem filter_range_length_lt (p : Nat → Bool) (n c : Nat) (hc : c < n)
    (hp : p c = true) :
    ((List.range c).filter p).length < ((List.range n).filter p).length := by
  have hsplit : n = c + (n - c) := by omega
  rw [hsplit, List.range_add, List.filter_append, List.length_append]
  have hmem : c ∈ ((List.range (n - c)).map (c + ·)).filter p := by
    rw [List.mem_filter]
    constructor
    · rw [List.mem_map]
      exact ⟨0, List.mem_range.mpr (by omega), by omega⟩
    · exact hp
  have := List.length_pos.mpr (List.ne_nil_of_mem hmem)
  omega

theorem filter_range_getD (p : Nat → Bool) :
    ∀ (n c : Nat), c < n → p c = true →
      ((List.range n).filter p).getD
        (((List.range c).filter p).length) 0 = c := by
  intro n
  induction n with
  | zero => intro c hc; omega
  | succ n ih =>
      intro c hc hp
      rw [List.range_succ, List.filter_append]
      by_cases hcn : c = n
      · subst hcn
        rw [List.getD_eq_getElem?_getD, List.getElem?_append_right (by omega),
          Nat.sub_self]
        simp only [List.filter_cons, List.filter_nil, hp, if_pos]
        rfl
      · have hlt : c < n := by omega
        have hrank := filter_range_length_lt p n c hlt hp
        rw [List.getD_eq_getElem?_getD, List.getElem?_append,
          if_pos (by omega)]
        rw [← List.getD_eq_getElem?_getD]
        exact ih c hlt hp

theorem getD_map_range {α : Type} (f : Nat → α) (n j : Nat) (hj : j < n)
    (d : α) : ((List.range n).map f).getD j d = f j := by
  rw [List.getD_eq_getElem?_getD, List.getElem?_map, List.getElem?_range hj]
  rfl

theorem map_getD_range {α : Type} (d : α) :
    ∀ l : List α, (List.range l.length).map (fun i => l.getD i d) = l
  | [] => rfl
  | a :: l => by
      rw [List.length_cons, List.range_succ_eq_map, List.map_cons,
        List.map_map]
      have h1 : ((fun i => (a :: l).getD i d) ∘ Nat.succ) =
          (fun i => l.getD i d) := rfl
      rw [h1, List.getD_cons_zero, map_getD_range d l]

theorem flatten_map_singleton {α β : Type} (f : α → β) :
    ∀ l : List α, (l.map (fun i => [f i])).flatten = l.map f
  | [] => rfl
  | a :: l => by
      rw [List.map_cons, List.flatten_cons, List.map_cons,
        flatten_map_singleton f l]
      rfl

theorem flatten_getD {α : Type} (d : α) :
    ∀ (R : List (List α)) (j k : Nat), j < R.length →
      k < (R.getD j []).length →
      R.flatten.getD (((R.take j).map List.length).sum + k) d =
        (R.getD j []).getD k d
  | [], j, k, hj, _ => absurd hj (by simp)
  | row :: R', 0, k, _, hk => by
      simp only [List.take_zero, List.map_nil, List.sum_nil, Nat.zero_add,
        List.getD_cons_zero] at hk ⊢
      rw [List.flatten_cons]
      rw [List.getD_eq_getElem?_getD, List.getElem?_append, if_pos hk]
      rw [← List.getD_eq_getElem?_getD]
  | row :: R', j + 1, k, hj, hk => by
      have hj' : j < R'.length := by simpa using hj
      have hk' : k < (R'.getD j []).length := by
        rw [List.getD_cons_succ] at hk
        exact hk
      have ihr := flatten_getD d R' j k hj' hk'
      rw [List.getD_cons_succ]
      rw [show ((row :: R').take (j + 1)) = row :: R'.take j from rfl,
        List.map_cons, List.sum_cons, List.flatten_cons]
      rw [List.getD_eq_getElem?_getD, List.getElem?_append_right (by omega)]
      rw [show row.length + (List.map List.length (List.take j R')).sum + k -
        row.length = (List.map List.length (List.take j R')).sum + k from by
          omega]
      rw [← List.getD_eq_getElem?_getD]
      exact ihr

theorem rfMark_fold_char (rails : Nat) : ∀ n : Nat,
    (List.range n).foldl (rfMarkStep rails) ((fun _ _ => .empty), 0, 1) =
      (rfMarkGrid rails n, zigState rails n) := by
  intro n
  induction n with
  | zero =>
      rfl
  | succ n ih =>
      rw [List.range_succ, List.foldl_append, ih, List.foldl_cons,
        List.foldl_nil]
      show ((fun r c => if r = (zigState rails n).1 ∧ c = n then RFCell.mark
          else rfMarkGrid rails n r c),
        zigNext rails (zigState rails n).1 (zigState rails n).2) = _
      congr 1
      funext r c
      have hrz : (zigState rails n).1 = railOf rails n := rfl
      rw [hrz]
      by_cases h1 : r = railOf rails n ∧ c = n
      · rw [if_pos h1]
        obtain ⟨hr, hc⟩ := h1
        subst hr
        subst hc
        rw [rfMarkGrid, if_pos ⟨Nat.lt_succ_self c, rfl⟩]
      · rw [if_neg h1, rfMarkGrid, rfMarkGrid]
        by_cases h2 : c < n ∧ railOf rails c = r
        · rw [if_pos h2, if_pos ⟨by omega, h2.2⟩]
        · rw [if_neg h2, if_neg ?_]
          intro ⟨ha, hb⟩
          by_cases hcn : c = n
          · subst hcn
            exact h1 ⟨hb.symm, rfl⟩
          · exact h2 ⟨by omega, hb⟩

theorem rfFillStep_eq (cipher : List Char) (g : Int → Nat → RFCell)
    (idx : Nat) (r : Int) (c : Nat) :
    rfFillStep cipher (g, idx) (r, c) =
      if g r c = RFCell.mark ∧ idx < cipher.length then
        ((fun r' c' => if r' = r ∧ c' = c then
          RFCell.chr (cipher.getD idx ' ') else g r' c'), idx + 1)
      else (g, idx) := rfl

theorem rfFill_row_aux (cipher : List Char) (rails : Nat) (r : Int)
    (g : Int → Nat → RFCell) (idx len : Nat) (hlen : len = cipher.length)
    (hrow : ∀ c, g r c = rfMarkGrid rails len r c)
    (hbound : idx + rfRank rails len r ≤ len) :
    ∀ n, n ≤ len →
      ((List.range n).map (fun c => (r, c))).foldl (rfFillStep cipher)
        (g, idx) =
      ((fun r' c => if r' = r ∧ c < n ∧ railOf rails c = r then
          RFCell.chr (cipher.getD (idx + rfRank rails c r) ' ')
        else g r' c), idx + rfRank rails n r) := by
  intro n
  induction n with
  | zero =>
      intro _
      rw [List.range_zero, List.map_nil, List.foldl_nil]
      congr 1
      funext r' c
      rw [if_neg (fun h => Nat.not_lt_zero c h.2.1)]
  | succ n ih =>
      intro hn1
      have hn : n ≤ len := by omega
      rw [List.range_succ, List.map_append, List.foldl_append, ih hn,
        List.map_cons, List.map_nil, List.foldl_cons, List.foldl_nil]
      rw [rfFillStep_eq]
      have hGn : (if r = r ∧ n < n ∧ railOf rails n = r then
          RFCell.chr (cipher.getD (idx + rfRank rails n r) ' ')
        else g r n) = rfMarkGrid rails len r n := by
        rw [if_neg (fun h => Nat.lt_irrefl n h.2.1)]
        exact hrow n
      rw [hGn]
      by_cases hmark : railOf rails n = r
      · have hmark' : rfMarkGrid rails len r n = RFCell.mark := by
          rw [rfMarkGrid, if_pos ⟨by omega, hmark⟩]
        have hranklt : rfRank rails n r < rfRank rails len r := by
          rw [rfRank, rfRank]
          exact filter_range_length_lt _ len n (by omega)
            (decide_eq_true hmark)
        have hguard : idx + rfRank rails n r < cipher.length := by omega
        rw [hmark', if_pos ⟨rfl, hguard⟩]
        have hrank1 : rfRank rails (n + 1) r = rfRank rails n r + 1 := by
          rw [rfRank, rfRank, List.range_succ, List.filter_append,
            List.length_append]
          simp only [List.filter_cons, List.filter_nil, decide_eq_true hmark,
            if_pos]
          rfl
        rw [hrank1]
        congr 1
        funext r' c
        by_cases hA : r' = r ∧ c = n
        · obtain ⟨ha, hb⟩ := hA
          subst ha
          subst hb
          rw [if_pos ⟨rfl, rfl⟩, if_pos ⟨rfl, by omega, hmark⟩]
        · rw [if_neg hA]
          by_cases hB : r' = r ∧ c < n ∧ railOf rails c = r
          · rw [if_pos hB, if_pos ⟨hB.1, by omega, hB.2.2⟩]
          · rw [if_neg hB, if_neg ?_]
            intro ⟨ha, hb, hc⟩
            by_cases hcn : c = n
            · exact hA ⟨ha, hcn⟩
            · exact hB ⟨ha, by omega, hc⟩
      · have hmark' : rfMarkGrid rails len r n = RFCell.empty := by
          rw [rfMarkGrid, if_neg (fun h => hmark h.2)]
        rw [hmark', if_neg (fun h => RFCell.noConfusion h.1)]
        have hrank1 : rfRank rails (n + 1) r = rfRank rails n r := by
          rw [rfRank, rfRank, List.range_succ, List.filter_append,
            List.length_append]
          simp only [List.filter_cons, List.filter_nil,
            decide_eq_false hmark, Bool.false_eq_true, if_false]
          rfl
        rw [hrank1]
        congr 1
        funext r' c
        by_cases hB : r' = r ∧ c < n ∧ railOf rails c = r
        · rw [if_pos hB, if_pos ⟨hB.1, by omega, hB.2.2⟩]
        · rw [if_neg hB, if_neg ?_]
          intro ⟨ha, hb, hc⟩
          by_cases hcn : c = n
          · subst hcn
            exact hmark (ha ▸ hc)
          · exact hB ⟨ha, by omega, hc⟩

theorem rfFill_all (cipher : List Char) (rails : Nat) (h2 : 2 ≤ rails)
    (len : Nat) (hlen : len = cipher.length) :
    ∀ k, k ≤ rails →
      ((List.range k).flatMap (fun (row : Nat) => (List.range len).map
        (fun c => ((row : Int), c)))).foldl (rfFillStep cipher)
        (rfMarkGrid rails len, 0) =
      ((fun r c => if r < (k : Int) ∧ c < len ∧ railOf rails c = r then
          RFCell.chr (cipher.getD
            (rfPrefixCount rails len r + rfRank rails c r) ' ')
        else rfMarkGrid rails len r c),
        rfPrefixCount rails len (k : Int)) := by
  intro k
  induction k with
  | zero =>
      intro _
      rw [List.range_zero, List.flatMap_nil, List.foldl_nil]
      rw [show ((0 : Nat) : Int) = 0 from rfl, rfPrefixCount_zero rails len h2]
      congr 1
      funext r c
      rw [if_neg ?_]
      intro ⟨ha, _, hc⟩
      have := (railOf_bounds rails h2 c).1
      omega
  | succ k ih =>
      intro hk1
      have hk : k ≤ rails := by omega
      rw [List.range_succ, List.flatMap_append, List.foldl_append, ih hk]
      rw [List.flatMap_cons, List.flatMap_nil, List.append_nil]
      have hrow : ∀ c, (fun r c => if r < (k : Int) ∧ c < len ∧
            railOf rails c = r then RFCell.chr (cipher.getD
              (rfPrefixCount rails len r + rfRank rails c r) ' ')
          else rfMarkGrid rails len r c) ((k : Nat) : Int) c =
          rfMarkGrid rails len ((k : Nat) : Int) c := by
        intro c
        simp only
        rw [if_neg (fun h => by omega)]
      have hbound : rfPrefixCount rails len (k : Int) +
          rfRank rails len ((k : Nat) : Int) ≤ len := by
        have := rfPrefixCount_succ rails len (k : Int)
        have := rfPrefixCount_le rails len ((k : Int) + 1)
        omega
      rw [rfFill_row_aux cipher rails ((k : Nat) : Int) _
        (rfPrefixCount rails len (k : Int)) len hlen hrow hbound len
        (Nat.le_refl len)]
      have hcast : (((k + 1 : Nat)) : Int) = (k : Int) + 1 := by push_cast; ring
      rw [hcast, rfPrefixCount_succ rails len (k : Int)]
      congr 1
      funext r c
      by_cases hA : r = (k : Int) ∧ c < len ∧ railOf rails c = (k : Int)
      · rw [if_pos hA]
        obtain ⟨ha, hb, hc⟩ := hA
        rw [if_pos ⟨by omega, hb, by rw [ha]; exact hc⟩]
        rw [ha]
      · rw [if_neg hA]
        by_cases hB : r < (k : Int) ∧ c < len ∧ railOf rails c = r
        · rw [if_pos hB, if_pos ⟨by omega, hB.2⟩]
        · rw [if_neg hB, if_neg ?_]
          intro ⟨ha, hb, hc⟩
          by_cases hrk : r = (k : Int)
          · exact hA ⟨hrk, hb, by rw [← hrk]; exact hc⟩
          · exact hB ⟨by omega, hb, hc⟩

theorem rfRead_fold_char (rails : Nat) (grid : Int → Nat → RFCell) :
    ∀ n : Nat,
      (List.range n).foldl (rfReadStep rails grid) ([], 0, 1) =
        (((List.range n).map (fun i =>
          cellChars (grid (railOf rails i) i))).flatten, zigState rails n) := by
  intro n
  induction n with
  | zero => rfl
  | succ n ih =>
      rw [List.range_succ, List.foldl_append, ih, List.foldl_cons,
        List.foldl_nil]
      show (((List.range n).map (fun i => cellChars (grid (railOf rails i) i))).flatten
          ++ cellChars (grid (zigState rails n).1 n),
        zigNext rails (zigState rails n).1 (zigState rails n).2) = _
      rw [List.map_append, List.flatten_append]
      congr 1
      rw [List.map_cons, List.map_nil, List.flatten_cons, List.flatten_nil,
        List.append_nil]
      rfl

theorem sum_rank_eq_prefix (rails len : Nat) (h2 : 2 ≤ rails) : ∀ k : Nat,
    ((List.range k).map (fun r => rfRank rails len ((r : Nat) : Int))).sum =
      rfPrefixCount rails len ((k : Nat) : Int) := by
  intro k
  induction k with
  | zero =>
      rw [List.range_zero, List.map_nil, List.sum_nil,
        show ((0 : Nat) : Int) = 0 from rfl,
        rfPrefixCount_zero rails len h2]
  | succ k ih =>
      rw [List.range_succ, List.map_append, List.sum_append, ih,
        List.map_cons, List.map_nil, List.sum_cons, List.sum_nil]
      rw [show (((k + 1 : Nat)) : Int) = (k : Int) + 1 from by push_cast; ring]
      rw [rfPrefixCount_succ rails len (k : Int)]
      omega

theorem rfDecode_char (rl : Int) (t : List Char) (hrl : 2 ≤ rl) (i : Nat)
    (hit : i < t.length) :
    (((List.range rl.toNat).map (fun (r : Nat) =>
      ((List.range t.length).filter
        (fun j => railOf rl.toNat j = (r : Int))).map
      (fun j => t.getD j ' '))).flatten).getD
      (rfPrefixCount rl.toNat t.length (railOf rl.toNat i) +
        rfRank rl.toNat i (railOf rl.toNat i)) ' ' = t.getD i ' ' := by
  have h2 : 2 ≤ rl.toNat := by omega
  obtain ⟨hb0, hb1⟩ := railOf_bounds rl.toNat h2 i
  have hρn : (((railOf rl.toNat i).toNat : Nat) : Int) = railOf rl.toNat i :=
    Int.toNat_of_nonneg hb0
  have hρlt : (railOf rl.toNat i).toNat < rl.toNat := by omega
  rw [← hρn]
  have hranklt : rfRank rl.toNat i (((railOf rl.toNat i).toNat : Nat) : Int) <
      rfRank rl.toNat t.length (((railOf rl.toNat i).toNat : Nat) : Int) := by
    rw [rfRank, rfRank]
    exact filter_range_length_lt _ t.length i hit
      (decide_eq_true (by rw [hρn]))
  have hsum : ((((List.range rl.toNat).map (fun (r : Nat) =>
      ((List.range t.length).filter
        (fun j => railOf rl.toNat j = (r : Int))).map
      (fun j => t.getD j ' '))).take (railOf rl.toNat i).toNat).map
        List.length).sum =
      rfPrefixCount rl.toNat t.length
        (((railOf rl.toNat i).toNat : Nat) : Int) := by
    rw [← List.map_take, List.take_range, Nat.min_eq_left (by omega)]
    rw [List.map_map]
    have hmap : (List.length ∘ fun (r : Nat) =>
        ((List.range t.length).filter
          (fun j => railOf rl.toNat j = (r : Int))).map
        (fun j => t.getD j ' ')) =
        (fun (r : Nat) => rfRank rl.toNat t.length ((r : Nat) : Int)) := by
      funext r
      simp only [Function.comp_apply, List.length_map]
      rfl
    rw [hmap]
    exact sum_rank_eq_prefix rl.toNat t.length h2 (railOf rl.toNat i).toNat
  have hflat := flatten_getD ' '
    ((List.range rl.toNat).map (fun (r : Nat) =>
      ((List.range t.length).filter
        (fun j => railOf rl.toNat j = (r : Int))).map
      (fun j => t.getD j ' ')))
    (railOf rl.toNat i).toNat
    (rfRank rl.toNat i (((railOf rl.toNat i).toNat : Nat) : Int))
    (by rw [List.length_map, List.length_range]; exact hρlt)
    (by
      rw [getD_map_range _ rl.toNat (railOf rl.toNat i).toNat hρlt]
      rw [List.length_map]
      exact hranklt)
  rw [hsum] at hflat
  rw [hflat]
  rw [getD_map_range _ rl.toNat (railOf rl.toNat i).toNat hρlt]
  rw [getD_map_lt _ _ _ ?_ 0 ' ']
  · congr 1
    rw [rfRank]
    exact filter_range_getD _ t.length i hit (decide_eq_true (by rw [hρn]))
  · exact hranklt

/-- C4: for every integer rail count `r ≥ 2` and every non-empty text,
decrypting an encryption returns the text exactly. -/
theorem railFence_roundtrip (rl : Int) (t : List Char) (hrl : 2 ≤ rl)
    (ht : t ≠ []) :
    (railFenceEncrypt t (some rl)).bind
      (fun ct => railFenceDecrypt ct (some rl)) = .ok t := by
  have h2 : 2 ≤ rl.toNat := by omega
  rw [railFenceEncrypt_eq t rl hrl]
  show railFenceDecrypt (((List.range rl.toNat).map (fun (r : Nat) =>
      ((List.range t.length).filter
        (fun i => railOf rl.toNat i = (r : Int))).map
      (fun i => t.getD i ' '))).flatten) (some rl) = .ok t
  set ct := (((List.range rl.toNat).map (fun (r : Nat) =>
      ((List.range t.length).filter
        (fun i => railOf rl.toNat i = (r : Int))).map
      (fun i => t.getD i ' '))).flatten) with hctdef
  have hctlen : ct.length = t.length := by
    rw [hctdef, List.length_flatten, List.map_map]
    have hmap : (List.length ∘ fun (r : Nat) =>
        ((List.range t.length).filter
          (fun i => railOf rl.toNat i = (r : Int))).map
        (fun i => t.getD i ' ')) =
        (fun (r : Nat) => rfRank rl.toNat t.length ((r : Nat) : Int)) := by
      funext r
      simp only [Function.comp_apply, List.length_map]
      rfl
    rw [hmap, sum_rank_eq_prefix rl.toNat t.length h2 rl.toNat,
      rfPrefixCount_rails rl.toNat t.length h2]
  have hctne : ct ≠ [] := by
    intro h
    rw [h, List.length_nil] at hctlen
    exact ht (List.length_eq_zero.mp hctlen.symm)
  rw [railFenceDecrypt]
  rw [if_neg (by omega), if_neg hctne]
  show Except.ok ((List.range ct.length).foldl
      (rfReadStep rl.toNat
        ((((List.range rl.toNat).flatMap
            (fun (r : Nat) => (List.range ct.length).map
              (fun c => ((r : Int), c)))).foldl (rfFillStep ct)
          ((((List.range ct.length).foldl (rfMarkStep rl.toNat)
            ((fun _ _ => RFCell.empty), 0, 1)).1), 0)).1))
      ([], 0, 1)).1 = Except.ok t
  have hmark1 : ((List.range ct.length).foldl (rfMarkStep rl.toNat)
      ((fun _ _ => RFCell.empty), 0, 1)).1 = rfMarkGrid rl.toNat ct.length :=
    congrArg Prod.fst (rfMark_fold_char rl.toNat ct.length)
  rw [hmark1]
  have hfill1 := congrArg Prod.fst
    (rfFill_all ct rl.toNat h2 ct.length rfl rl.toNat (Nat.le_refl _))
  rw [hfill1]
  have hread1 := congrArg Prod.fst (rfRead_fold_char rl.toNat
    (fun r c => if r < (rl.toNat : Int) ∧ c < ct.length ∧
        railOf rl.toNat c = r then
      RFCell.chr (ct.getD
        (rfPrefixCount rl.toNat ct.length r + rfRank rl.toNat c r) ' ')
    else rfMarkGrid rl.toNat ct.length r c) ct.length)
  rw [hread1]
  have hmapeq : (List.range ct.length).map (fun i =>
      cellChars ((fun r c => if r < (rl.toNat : Int) ∧ c < ct.length ∧
          railOf rl.toNat c = r then
        RFCell.chr (ct.getD
          (rfPrefixCount rl.toNat ct.length r + rfRank rl.toNat c r) ' ')
      else rfMarkGrid rl.toNat ct.length r c) (railOf rl.toNat i) i)) =
      (List.range ct.length).map (fun i => [t.getD i ' ']) := by
    apply List.map_congr_left
    intro i hi
    rw [List.mem_range] at hi
    have hit : i < t.length := by omega
    obtain ⟨hb0, hb1⟩ := railOf_bounds rl.toNat h2 i
    show cellChars (if railOf rl.toNat i < (rl.toNat : Int) ∧ i < ct.length ∧
        railOf rl.toNat i = railOf rl.toNat i then
      RFCell.chr (ct.getD
        (rfPrefixCount rl.toNat ct.length (railOf rl.toNat i) +
          rfRank rl.toNat i (railOf rl.toNat i)) ' ')
    else rfMarkGrid rl.toNat ct.length (railOf rl.toNat i) i) =
      [t.getD i ' ']
    rw [if_pos ⟨by omega, hi, rfl⟩]
    rw [cellChars]
    congr 1
    rw [hctlen, hctdef]
    exact rfDecode_char rl t hrl i hit
  rw [hmapeq, flatten_map_singleton, hctlen]
  rw [map_getD_range ' ' t]

/-- Witness for C4 at the spec's scenario input. -/
theorem railFence_roundtrip_witness :
    (railFenceEncrypt "WEAREDISCOVERED".toList (some 3)).bind
      (fun ct => railFenceDecrypt ct (some 3)) =
      .ok "WEAREDISCOVERED".toList :=
  railFence_roundtrip 3 "WEAREDISCOVERED".toList (by decide) (by decide)

-- ## Columnar Transposition cipher

/-- Transposition key sanitization: `toUpperCase`, keep only capitals
(no J-folding here). -/
def sanitizeTranspositionKey (key : List Char) : List Char :=
  (key.map Char.toUpper).filter (fun c => 65 ≤ c.toNat && c.toNat ≤ 90)

/-- `keyArr.sort((a, b) => a.char.localeCompare(b.char) || a.index - b.index)`:
the enumerated key letters sorted by letter then original position.  On
single ASCII capitals `localeCompare` is code-point order, and because the
comparator is a total order with all-distinct indices the sorted array is
the unique sorted permutation, which `insertionSort` computes. -/
def sortedKeyOrder (sanitizedKey : List Char) : List (Nat × Char) :=
  List.insertionSort (fun a b =>
    a.2.toNat < b.2.toNat ∨ (a.2.toNat = b.2.toNat ∧ a.1 ≤ b.1))
    sanitizedKey.enum

/-- One write of the encrypt grid fill: `grid[i / numCols][i % numCols] = text[i]`. -/
def ctGridStep (text : List Char) (numCols : Nat)
    (g : Nat → Nat → Option Char) (i : Nat) : Nat → Nat → Option Char :=
  fun rr cc => if rr = i / numCols ∧ cc = i % numCols then
    some (text.getD i ' ') else g rr cc

/-- `columnarTranspositionEncrypt(text, key)`: row-major grid fill, then
column-by-column read in sorted key order, skipping empty cells. -/
def columnarTranspositionEncrypt (text key : List Char) :
    Except CipherError (List Char) :=
  let sanitizedKey := sanitizeTranspositionKey key
  if sanitizedKey = [] then .error .invalidKey
  else
    let numCols := sanitizedKey.length
    let numRows := (text.length + numCols - 1) / numCols
    let grid := (List.range text.length).foldl (ctGridStep text numCols)
      (fun _ _ => none)
    .ok ((sortedKeyOrder sanitizedKey).flatMap (fun k =>
      (List.range numRows).flatMap (fun row => (grid row k.1).toList)))

/-- One write of the decrypt grid fill: place the next unused ciphertext
character at `grid[row][colIndex]` (guarded by `charIndex < len`). -/
def ctdFillStep (cipherText : List Char) (colIndex : Nat)
    (st : (Nat → Nat → Option Char) × Nat) (row : Nat) :
    (Nat → Nat → Option Char) × Nat :=
  if st.2 < cipherText.length then
    ((fun rr cc => if rr = row ∧ cc = colIndex then
        some (cipherText.getD st.2 ' ') else st.1 rr cc), st.2 + 1)
  else st

/-- `columnarTranspositionDecrypt(cipherText, key)`: walk the sorted key
order, consume each column's computed length of characters, then read the
grid row-major. -/
def columnarTranspositionDecrypt (cipherText key : List Char) :
    Except CipherError (List Char) :=
  let sanitizedKey := sanitizeTranspositionKey key
  if sanitizedKey = [] then .error .invalidKey
  else
    let numCols := sanitizedKey.length
    let len := cipherText.length
    let numRows := (len + numCols - 1) / numCols
    let fullCols := len % numCols
    let final := (sortedKeyOrder sanitizedKey).foldl (fun st k =>
      (List.range (if fullCols = 0 ∨ k.1 < fullCols then numRows
        else numRows - 1)).foldl (ctdFillStep cipherText k.1) st)
      ((fun _ _ => none), 0)
    .ok ((List.range numRows).flatMap (fun row =>
      (List.range numCols).flatMap (fun col => (final.1 row col).toList)))

-- ### Columnar Transposition helper lemmas

/-- The column length the decrypt side assigns to original column `col`. -/
def cdLen (n K col : Nat) : Nat :=
  if n % K = 0 ∨ col < n % K then (n + K - 1) / K else (n + K - 1) / K - 1

/-- The characters the encryption reads out of column `col`. -/
def ctColList (t : List Char) (K col : Nat) : List Char :=
  (List.range (cdLen t.length K col)).map (fun row => t.getD (row * K + col) ' ')

theorem sortedKeyOrder_cols (sk : List Char) :
    ((sortedKeyOrder sk).map Prod.fst).Perm (List.range sk.length) := by
  have h1 : (sortedKeyOrder sk).Perm sk.enum := List.perm_insertionSort _ _
  have h2 := h1.map Prod.fst
  rw [List.enum_map_fst] at h2
  exact h2

theorem sortedKeyOrder_fst_lt (sk : List Char) (k : Nat × Char)
    (hk : k ∈ sortedKeyOrder sk) : k.1 < sk.length := by
  have : k.1 ∈ (sortedKeyOrder sk).map Prod.fst := List.mem_map_of_mem _ hk
  have := (sortedKeyOrder_cols sk).mem_iff.mp this
  exact List.mem_range.mp this

theorem sortedKeyOrder_covers (sk : List Char) (col : Nat)
    (hcol : col < sk.length) : ∃ k ∈ sortedKeyOrder sk, k.1 = col := by
  have : col ∈ (sortedKeyOrder sk).map Prod.fst :=
    (sortedKeyOrder_cols sk).mem_iff.mpr (List.mem_range.mpr hcol)
  obtain ⟨k, hk, hke⟩ := List.mem_map.mp this
  exact ⟨k, hk, hke⟩

theorem rowcol_div (K row col : Nat) (hK : 0 < K) (hc : col < K) :
    (row * K + col) / K = row ∧ (row * K + col) % K = col := by
  rw [Nat.mul_comm row K]
  constructor
  · rw [Nat.mul_add_div hK, Nat.div_eq_of_lt hc, Nat.add_zero]
  · rw [Nat.mul_add_mod, Nat.mod_eq_of_lt hc]

theorem ctGrid_char (t : List Char) (K : Nat) (hK : 0 < K) : ∀ m : Nat,
    (List.range m).foldl (ctGridStep t K) (fun _ _ => none) =
      fun row col => if col < K ∧ row * K + col < m then
        some (t.getD (row * K + col) ' ') else none := by
  intro m
  induction m with
  | zero =>
      rw [List.range_zero, List.foldl_nil]
      funext row col
      rw [if_neg (fun h => Nat.not_lt_zero _ h.2)]
  | succ m ih =>
      rw [List.range_succ, List.foldl_append, ih, List.foldl_cons,
        List.foldl_nil]
      funext row col
      show (if row = m / K ∧ col = m % K then some (t.getD m ' ')
        else if col < K ∧ row * K + col < m then
          some (t.getD (row * K + col) ' ') else none) = _
      by_cases hA : row = m / K ∧ col = m % K
      · rw [if_pos hA]
        obtain ⟨ha, hb⟩ := hA
        have hcol : col < K := by rw [hb]; exact Nat.mod_lt _ hK
        have hrc : row * K + col = m := by
          rw [ha, hb, Nat.mul_comm]
          exact Nat.div_add_mod m K
        rw [if_pos ⟨hcol, by omega⟩, hrc]
      · rw [if_neg hA]
        by_cases hB : col < K ∧ row * K + col < m
        · rw [if_pos hB, if_pos ⟨hB.1, by omega⟩]
        · rw [if_neg hB, if_neg ?_]
          intro ⟨h1, h2⟩
          by_cases hm : row * K + col = m
          · obtain ⟨hd, hmo⟩ := rowcol_div K row col hK h1
            rw [hm] at hd hmo
            exact hA ⟨hd.symm, hmo.symm⟩
          · exact hB ⟨h1, by omega⟩

theorem lt_B_iff (n K col row : Nat) (hK : 0 < K) :
    row < (n + K - 1 - col) / K ↔ row * K + col < n := by
  rw [Nat.lt_iff_add_one_le, Nat.le_div_iff_mul_le hK, Nat.add_mul,
    Nat.one_mul]
  omega

theorem cdLen_eq_B (n K col : Nat) (hK : 0 < K) (hc : col < K) :
    cdLen n K col = (n + K - 1 - col) / K := by
  have hn := Nat.div_add_mod n K
  have hf : n % K < K := Nat.mod_lt _ hK
  have hR : (n + K - 1) = K * (n / K) + (n % K + K - 1) := by omega
  have hB : (n + K - 1 - col) = K * (n / K) + (n % K + K - 1 - col) := by
    omega
  rw [cdLen, hB, Nat.mul_add_div hK]
  by_cases h0 : n % K = 0
  · have e1 : (n % K + K - 1) / K = 0 := Nat.div_eq_of_lt (by omega)
    have e2 : (n % K + K - 1 - col) / K = 0 := Nat.div_eq_of_lt (by omega)
    rw [if_pos (Or.inl h0), hR, Nat.mul_add_div hK, e1, e2]
  · by_cases hcf : col < n % K
    · have e1 : (n % K + K - 1) / K = 1 :=
        Nat.div_eq_of_lt_le (by omega) (by omega)
      have e2 : (n % K + K - 1 - col) / K = 1 :=
        Nat.div_eq_of_lt_le (by omega) (by omega)
      rw [if_pos (Or.inr hcf), hR, Nat.mul_add_div hK, e1, e2]
    · have e1 : (n % K + K - 1) / K = 1 :=
        Nat.div_eq_of_lt_le (by omega) (by omega)
      have e2 : (n % K + K - 1 - col) / K = 0 := Nat.div_eq_of_lt (by omega)
      rw [if_neg (by omega), hR, Nat.mul_add_div hK, e1, e2]
      rw [Nat.add_sub_cancel, Nat.add_zero]

theorem flatMap_congr {α β : Type} (l : List α) (f g : α → List β)
    (h : ∀ x ∈ l, f x = g x) : l.flatMap f = l.flatMap g := by
  rw [List.flatMap_def, List.flatMap_def, List.map_congr_left h]

theorem flatMap_ite_singleton {α β : Type} (P : α → Prop) [DecidablePred P]
    (v : α → β) : ∀ l : List α,
      l.flatMap (fun x => if P x then [v x] else []) =
        (l.filter (fun x => decide (P x))).map v
  | [] => rfl
  | a :: l => by
      rw [List.flatMap_cons, flatMap_ite_singleton P v l, List.filter_cons]
      by_cases h : P a
      · rw [if_pos h, if_pos (by simpa using h), List.map_cons]
        rfl
      · rw [if_neg h, if_neg (by simpa using h), List.nil_append]

theorem filter_range_lt_eq (B : Nat) : ∀ R : Nat,
    (List.range R).filter (fun row => decide (row < B)) =
      List.range (min B R) := by
  intro R
  induction R with
  | zero => simp
  | succ R ih =>
      rw [List.range_succ, List.filter_append, ih]
      by_cases h : R < B
      · rw [Nat.min_eq_right (by omega : R ≤ B),
          Nat.min_eq_right (by omega : R + 1 ≤ B)]
        simp only [List.filter_cons, List.filter_nil, decide_eq_true h,
          if_pos]
        rw [← List.range_succ]
      · have hb : B ≤ R := by omega
        rw [Nat.min_eq_left hb, Nat.min_eq_left (by omega)]
        simp only [List.filter_cons, List.filter_nil]
        rw [if_neg (by simpa using h), List.append_nil]

theorem B_le_R (n K col : Nat) : (n + K - 1 - col) / K ≤ (n + K - 1) / K :=
  Nat.div_le_div_right (Nat.sub_le _ _)

theorem enc_col_eq (t : List Char) (K col : Nat) (hK : 0 < K)
    (hc : col < K) :
    (List.range ((t.length + K - 1) / K)).flatMap (fun row =>
      (if col < K ∧ row * K + col < t.length then
        some (t.getD (row * K + col) ' ') else none).toList) =
      ctColList t K col := by
  have hcongr : ∀ row ∈ List.range ((t.length + K - 1) / K),
      ((if col < K ∧ row * K + col < t.length then
        some (t.getD (row * K + col) ' ') else none).toList) =
      ((fun row => if row * K + col < t.length then
        [t.getD (row * K + col) ' '] else []) row) := by
    intro row _
    show _ = (if row * K + col < t.length then
      [t.getD (row * K + col) ' '] else [])
    by_cases h : row * K + col < t.length
    · rw [if_pos ⟨hc, h⟩, if_pos h]
      rfl
    · rw [if_neg (fun hh => h hh.2), if_neg h]
      rfl
  rw [flatMap_congr _ _ _ hcongr]
  rw [flatMap_ite_singleton (fun row => row * K + col < t.length)
    (fun row => t.getD (row * K + col) ' ') _]
  have hfc : ∀ row ∈ List.range ((t.length + K - 1) / K),
      decide (row * K + col < t.length) =
        decide (row < (t.length + K - 1 - col) / K) := by
    intro row _
    exact decide_eq_decide.mpr (lt_B_iff t.length K col row hK).symm
  rw [List.filter_congr hfc, filter_range_lt_eq,
    Nat.min_eq_left (B_le_R t.length K col), ctColList,
    cdLen_eq_B t.length K col hK hc]

theorem getD_append_lt {α : Type} (A B : List α) (j : Nat)
    (hj : j < A.length) (d : α) : (A ++ B).getD j d = A.getD j d := by
  rw [List.getD_eq_getElem?_getD, List.getElem?_append, if_pos hj,
    ← List.getD_eq_getElem?_getD]

theorem getD_append_ge {α : Type} (A B : List α) (j : Nat)
    (hj : A.length ≤ j) (d : α) :
    (A ++ B).getD j d = B.getD (j - A.length) d := by
  rw [List.getD_eq_getElem?_getD, List.getElem?_append_right hj,
    ← List.getD_eq_getElem?_getD]

theorem ctColList_length (t : List Char) (K col : Nat) :
    (ctColList t K col).length = cdLen t.length K col := by
  rw [ctColList, List.length_map, List.length_range]

theorem ctdFillStep_eq (cipher : List Char) (colIndex : Nat)
    (g : Nat → Nat → Option Char) (idx row : Nat) :
    ctdFillStep cipher colIndex (g, idx) row =
      if idx < cipher.length then
        ((fun rr cc => if rr = row ∧ cc = colIndex then
          some (cipher.getD idx ' ') else g rr cc), idx + 1)
      else (g, idx) := rfl

theorem ctd_col_fold (cipher : List Char) (col L : Nat) : ∀ m : Nat,
    m ≤ L → ∀ (g : Nat → Nat → Option Char) (idx : Nat),
      idx + L ≤ cipher.length →
      (List.range m).foldl (ctdFillStep cipher col) (g, idx) =
        ((fun rr cc => if rr < m ∧ cc = col then
          some (cipher.getD (idx + rr) ' ') else g rr cc), idx + m) := by
  intro m
  induction m with
  | zero =>
      intro _ g idx _
      rfl
  | succ m ih =>
      intro hm1 g idx hidx
      have hm : m ≤ L := by omega
      rw [List.range_succ, List.foldl_append, ih hm g idx hidx,
        List.foldl_cons, List.foldl_nil, ctdFillStep_eq,
        if_pos (by omega)]
      congr 1
      funext rr cc
      by_cases hA : rr = m ∧ cc = col
      · rw [if_pos hA, if_pos ⟨by omega, hA.2⟩, hA.1]
      · rw [if_neg hA]
        by_cases hB : rr < m ∧ cc = col
        · rw [if_pos hB, if_pos ⟨by omega, hB.2⟩]
        · rw [if_neg hB, if_neg ?_]
          intro ⟨h1, h2⟩
          by_cases hrm : rr = m
          · exact hA ⟨hrm, h2⟩
          · exact hB ⟨by omega, h2⟩

theorem ctd_fold (t cipher : List Char) (K : Nat) (hK : 0 < K)
    (hlen : cipher.length = t.length) :
    ∀ (ks : List (Nat × Char)) (g : Nat → Nat → Option Char) (idx : Nat),
      (∀ j, j < (ks.flatMap (fun k => ctColList t K k.1)).length →
        cipher.getD (idx + j) ' ' =
          (ks.flatMap (fun k => ctColList t K k.1)).getD j ' ') →
      idx + (ks.flatMap (fun k => ctColList t K k.1)).length ≤
        cipher.length →
      ks.foldl (fun st k =>
        (List.range (if cipher.length % K = 0 ∨ k.1 < cipher.length % K then
          (cipher.length + K - 1) / K
        else (cipher.length + K - 1) / K - 1)).foldl
          (ctdFillStep cipher k.1) st) (g, idx) =
      ((fun rr cc => if (∃ k ∈ ks, k.1 = cc) ∧ rr < cdLen t.length K cc then
          some (t.getD (rr * K + cc) ' ') else g rr cc),
        idx + (ks.flatMap (fun k => ctColList t K k.1)).length)
  | [], g, idx, _, _ => rfl
  | k0 :: ks, g, idx, hch, hidx => by
      rw [List.foldl_cons]
      have hflen : (((k0 :: ks).flatMap
          (fun k => ctColList t K k.1))).length =
          cdLen t.length K k0.1 +
            ((ks.flatMap (fun k => ctColList t K k.1))).length := by
        rw [List.flatMap_cons, List.length_append, ctColList_length]
      have hif : (if cipher.length % K = 0 ∨ k0.1 < cipher.length % K then
          (cipher.length + K - 1) / K
        else (cipher.length + K - 1) / K - 1) = cdLen t.length K k0.1 := by
        rw [hlen]
        rfl
      rw [hif]
      rw [ctd_col_fold cipher k0.1 (cdLen t.length K k0.1)
        (cdLen t.length K k0.1) (Nat.le_refl _) g idx (by omega)]
      have hg1 : (fun rr cc => if rr < cdLen t.length K k0.1 ∧ cc = k0.1 then
          some (cipher.getD (idx + rr) ' ') else g rr cc) =
          (fun rr cc => if rr < cdLen t.length K k0.1 ∧ cc = k0.1 then
            some (t.getD (rr * K + cc) ' ') else g rr cc) := by
        funext rr cc
        by_cases hB : rr < cdLen t.length K k0.1 ∧ cc = k0.1
        · rw [if_pos hB, if_pos hB]
          have hch0 := hch rr (by omega)
          rw [List.flatMap_cons,
            getD_append_lt _ _ _ (by rw [ctColList_length]; omega)] at hch0
          rw [hch0, ctColList, getD_map_range _ _ rr (by omega), hB.2]
        · rw [if_neg hB, if_neg hB]
      rw [hg1]
      rw [ctd_fold t cipher K hK hlen ks _ (idx + cdLen t.length K k0.1)
        (by
          intro j hj
          have hch1 := hch (cdLen t.length K k0.1 + j) (by omega)
          rw [List.flatMap_cons,
            getD_append_ge _ _ _ (by rw [ctColList_length]; omega),
            ctColList_length,
            show cdLen t.length K k0.1 + j - cdLen t.length K k0.1 = j from
              by omega] at hch1
          rw [show idx + cdLen t.length K k0.1 + j =
            idx + (cdLen t.length K k0.1 + j) from by omega]
          exact hch1)
        (by omega)]
      have hidx2 : idx + cdLen t.length K k0.1 +
          ((ks.flatMap (fun k => ctColList t K k.1))).length =
          idx + (((k0 :: ks).flatMap
            (fun k => ctColList t K k.1))).length := by omega
      rw [hidx2]
      congr 1
      funext rr cc
      by_cases hA : (∃ k ∈ ks, k.1 = cc) ∧ rr < cdLen t.length K cc
      · rw [if_pos hA]
        obtain ⟨⟨k, hk, hke⟩, hrr⟩ := hA
        rw [if_pos ⟨⟨k, List.mem_cons_of_mem _ hk, hke⟩, hrr⟩]
      · rw [if_neg hA]
        by_cases hB : rr < cdLen t.length K k0.1 ∧ cc = k0.1
        · rw [if_pos hB]
          rw [if_pos ⟨⟨k0, List.mem_cons_self _ _, hB.2.symm⟩,
            by rw [hB.2]; exact hB.1⟩]
        · rw [if_neg hB, if_neg ?_]
          intro ⟨⟨k, hk, hke⟩, hrr⟩
          rcases List.mem_cons.mp hk with hk | hk
          · subst hk
            exact hB ⟨by rw [← hke] at hrr; exact hrr, hke.symm⟩
          · exact hA ⟨⟨k, hk, hke⟩, hrr⟩

theorem sum_const_range (v : Nat) : ∀ m : Nat,
    ((List.range m).map (fun _ => v)).sum = m * v
  | 0 => by simp
  | m + 1 => by
      rw [List.range_succ, List.map_append, List.sum_append,
        sum_const_range v m, List.map_cons, List.map_nil, List.sum_cons,
        List.sum_nil, Nat.succ_mul]
      omega

theorem sum_cdLen (n K : Nat) (hK : 0 < K) :
    ((List.range K).map (cdLen n K)).sum = n := by
  have hn := Nat.div_add_mod n K
  by_cases h0 : n % K = 0
  · have hcon : ∀ col ∈ List.range K,
        cdLen n K col = (fun (_ : Nat) => n / K) col := by
      intro col _
      show cdLen n K col = n / K
      rw [cdLen, if_pos (Or.inl h0)]
      have he : n + K - 1 = K * (n / K) + (K - 1) := by omega
      rw [he, Nat.mul_add_div hK,
        Nat.div_eq_of_lt (show K - 1 < K from by omega), Nat.add_zero]
    rw [List.map_congr_left hcon, sum_const_range]
    omega
  · have hf : n % K < K := Nat.mod_lt _ hK
    have hr := List.range_add (n % K) (K - n % K)
    rw [show n % K + (K - n % K) = K from by omega] at hr
    have hR : (n + K - 1) / K = n / K + 1 := by
      have he : n + K - 1 = K * (n / K + 1) + (n % K - 1) := by
        rw [Nat.mul_succ]
        omega
      rw [he, Nat.mul_add_div hK,
        Nat.div_eq_of_lt (show n % K - 1 < K from by omega), Nat.add_zero]
    rw [hr, List.map_append, List.sum_append, List.map_map]
    have hc1 : ∀ col ∈ List.range (n % K),
        cdLen n K col = (fun (_ : Nat) => n / K + 1) col := by
      intro col hcol
      show cdLen n K col = n / K + 1
      rw [cdLen, if_pos (Or.inr (List.mem_range.mp hcol)), hR]
    have hc2 : ∀ j ∈ List.range (K - n % K),
        (cdLen n K ∘ fun x => n % K + x) j = (fun (_ : Nat) => n / K) j := by
      intro j _
      have hneg : ¬(n % K = 0 ∨ n % K + j < n % K) := by
        intro hor
        rcases hor with h | h
        · exact h0 h
        · omega
      show cdLen n K (n % K + j) = n / K
      rw [cdLen, if_neg hneg, hR, Nat.add_sub_cancel]
    rw [List.map_congr_left hc1, List.map_congr_left hc2, sum_const_range,
      sum_const_range]
    have e1 : n % K * (n / K + 1) = n % K * (n / K) + n % K :=
      Nat.mul_succ _ _
    have e2 : (K - n % K) * (n / K) = K * (n / K) - n % K * (n / K) :=
      Nat.sub_mul _ _ _
    have e3 : n % K * (n / K) ≤ K * (n / K) :=
      Nat.mul_le_mul_right _ (Nat.le_of_lt hf)
    omega

theorem length_enc_cols (t sk : List Char) (hK : 0 < sk.length) :
    ((sortedKeyOrder sk).flatMap
      (fun k => ctColList t sk.length k.1)).length = t.length := by
  rw [List.length_flatMap]
  have hc : ∀ k ∈ sortedKeyOrder sk,
      (List.length ∘ fun (k : Nat × Char) => ctColList t sk.length k.1) k =
        ((cdLen t.length sk.length ∘ Prod.fst) k) := by
    intro k _
    exact ctColList_length t sk.length k.1
  rw [List.map_congr_left hc, ← List.map_map,
    ((sortedKeyOrder_cols sk).map (cdLen t.length sk.length)).sum_eq]
  exact sum_cdLen t.length sk.length hK

theorem take_eq_map_range (t : List Char) : ∀ m : Nat, m ≤ t.length →
    (List.range m).map (fun i => t.getD i ' ') = t.take m
  | 0, _ => by simp
  | m + 1, h => by
      rw [List.range_succ, List.map_append,
        take_eq_map_range t m (by omega), List.take_succ, List.map_cons,
        List.map_nil]
      congr 1
      rw [List.getD_eq_getElem?_getD, List.getElem?_eq_getElem (by omega)]
      rfl

theorem getD_drop_eq (t : List Char) (i j : Nat) :
    (t.drop i).getD j ' ' = t.getD (i + j) ' ' := by
  rw [List.getD_eq_getElem?_getD, List.getD_eq_getElem?_getD,
    List.getElem?_drop]

theorem chunks_cover (K : Nat) (hK : 0 < K) : ∀ (R : Nat) (t : List Char),
    t.length ≤ R * K →
    (List.range R).flatMap (fun row =>
      (List.range (min (t.length - row * K) K)).map
        (fun col => t.getD (row * K + col) ' ')) = t
  | 0, t, h => by
      rw [Nat.zero_mul] at h
      rw [List.range_zero, List.flatMap_nil]
      exact (List.eq_nil_of_length_eq_zero (by omega)).symm
  | R + 1, t, h => by
      rw [List.range_succ_eq_map, List.flatMap_cons, List.flatMap_map]
      show (List.range (min (t.length - 0 * K) K)).map
          (fun col => t.getD (0 * K + col) ' ') ++
        (List.range R).flatMap (fun a =>
          (List.range (min (t.length - Nat.succ a * K) K)).map
            (fun col => t.getD (Nat.succ a * K + col) ' ')) = t
      have h0 : (List.range (min (t.length - 0 * K) K)).map
          (fun col => t.getD (0 * K + col) ' ') = t.take K := by
        have hz : ∀ col ∈ List.range (min (t.length - 0 * K) K),
            t.getD (0 * K + col) ' ' =
              (fun (i : Nat) => t.getD i ' ') col := by
          intro col _
          rw [Nat.zero_mul, Nat.zero_add]
        rw [List.map_congr_left hz, Nat.zero_mul, Nat.sub_zero]
        rcases Nat.le_total t.length K with hle | hle
        · rw [Nat.min_eq_left hle,
            take_eq_map_range t t.length (Nat.le_refl _), List.take_length,
            List.take_of_length_le hle]
        · rw [Nat.min_eq_right hle, take_eq_map_range t K hle]
      have hcongr : ∀ a ∈ List.range R,
          (List.range (min (t.length - Nat.succ a * K) K)).map
            (fun col => t.getD (Nat.succ a * K + col) ' ') =
          ((fun (row : Nat) =>
            (List.range (min ((t.drop K).length - row * K) K)).map
              (fun col => (t.drop K).getD (row * K + col) ' ')) a) := by
        intro a _
        show _ = (List.range (min ((t.drop K).length - a * K) K)).map
          (fun col => (t.drop K).getD (a * K + col) ' ')
        have e1 : t.length - Nat.succ a * K = (t.drop K).length - a * K := by
          rw [List.length_drop, Nat.succ_mul]
          omega
        rw [e1]
        apply List.map_congr_left
        intro col _
        rw [getD_drop_eq]
        congr 1
        rw [Nat.succ_mul]
        omega
      rw [flatMap_congr _ _ _ hcongr, h0]
      have hdrop : (t.drop K).length ≤ R * K := by
        rw [List.length_drop]
        rw [Nat.succ_mul] at h
        omega
      rw [chunks_cover K hK R (t.drop K) hdrop]
      exact List.take_append_drop K t

theorem columnarTranspositionEncrypt_eq (t key : List Char)
    (hkey : sanitizeTranspositionKey key ≠ []) :
    columnarTranspositionEncrypt t key =
      .ok ((sortedKeyOrder (sanitizeTranspositionKey key)).flatMap
        (fun k => ctColList t (sanitizeTranspositionKey key).length k.1)) := by
  have hK : 0 < (sanitizeTranspositionKey key).length :=
    List.length_pos.mpr hkey
  show (if sanitizeTranspositionKey key = [] then
      (Except.error CipherError.invalidKey : Except CipherError (List Char))
    else Except.ok ((sortedKeyOrder (sanitizeTranspositionKey key)).flatMap
      (fun k => (List.range
          ((t.length + (sanitizeTranspositionKey key).length - 1) /
            (sanitizeTranspositionKey key).length)).flatMap (fun row =>
        (((List.range t.length).foldl
          (ctGridStep t (sanitizeTranspositionKey key).length)
          (fun _ _ => none)) row k.1).toList)))) = _
  rw [if_neg hkey]
  congr 1
  apply flatMap_congr
  intro k hk
  have hc : k.1 < (sanitizeTranspositionKey key).length :=
    sortedKeyOrder_fst_lt _ k hk
  rw [ctGrid_char t (sanitizeTranspositionKey key).length hK t.length]
  show (List.range ((t.length + (sanitizeTranspositionKey key).length - 1) /
      (sanitizeTranspositionKey key).length)).flatMap (fun row =>
    (if k.1 < (sanitizeTranspositionKey key).length ∧
        row * (sanitizeTranspositionKey key).length + k.1 < t.length then
      some (t.getD (row * (sanitizeTranspositionKey key).length + k.1) ' ')
    else none).toList) = _
  exact enc_col_eq t (sanitizeTranspositionKey key).length k.1 hK hc

theorem ctd_read_eq (t cipher : List Char) (sk : List Char)
    (hK : 0 < sk.length) (hlen : cipher.length = t.length)
    (hC : cipher = (sortedKeyOrder sk).flatMap
      (fun k => ctColList t sk.length k.1)) :
    (List.range ((cipher.length + sk.length - 1) / sk.length)).flatMap
      (fun row => (List.range sk.length).flatMap (fun col =>
        (((sortedKeyOrder sk).foldl (fun st k =>
          (List.range (if cipher.length % sk.length = 0 ∨
              k.1 < cipher.length % sk.length then
            (cipher.length + sk.length - 1) / sk.length
          else (cipher.length + sk.length - 1) / sk.length - 1)).foldl
          (ctdFillStep cipher k.1) st) ((fun _ _ => none), 0)).1
          row col).toList)) = t := by
  have hch : ∀ j, j < ((sortedKeyOrder sk).flatMap
      (fun k => ctColList t sk.length k.1)).length →
      cipher.getD (0 + j) ' ' = ((sortedKeyOrder sk).flatMap
        (fun k => ctColList t sk.length k.1)).getD j ' ' := by
    intro j _
    rw [Nat.zero_add, hC]
  have hidx : 0 + ((sortedKeyOrder sk).flatMap
      (fun k => ctColList t sk.length k.1)).length ≤ cipher.length := by
    rw [Nat.zero_add, hC]
  have hfold := ctd_fold t cipher sk.length hK hlen (sortedKeyOrder sk)
    (fun _ _ => none) 0 hch hidx
  rw [hfold, hlen]
  show (List.range ((t.length + sk.length - 1) / sk.length)).flatMap
    (fun row => (List.range sk.length).flatMap (fun col =>
      (if (∃ k ∈ sortedKeyOrder sk, k.1 = col) ∧
          row < cdLen t.length sk.length col then
        some (t.getD (row * sk.length + col) ' ')
      else none).toList)) = t
  have houter : ∀ row ∈ List.range ((t.length + sk.length - 1) / sk.length),
      (List.range sk.length).flatMap (fun col =>
        (if (∃ k ∈ sortedKeyOrder sk, k.1 = col) ∧
            row < cdLen t.length sk.length col then
          some (t.getD (row * sk.length + col) ' ')
        else none).toList) =
      ((fun (row : Nat) =>
        (List.range (min (t.length - row * sk.length) sk.length)).map
          (fun col => t.getD (row * sk.length + col) ' ')) row) := by
    intro row _
    show _ = (List.range (min (t.length - row * sk.length) sk.length)).map
      (fun col => t.getD (row * sk.length + col) ' ')
    have hin : ∀ col ∈ List.range sk.length,
        (if (∃ k ∈ sortedKeyOrder sk, k.1 = col) ∧
            row < cdLen t.length sk.length col then
          some (t.getD (row * sk.length + col) ' ')
        else none).toList =
        ((fun (col : Nat) => if row * sk.length + col < t.length then
          [t.getD (row * sk.length + col) ' '] else []) col) := by
      intro col hcol
      have hcK : col < sk.length := List.mem_range.mp hcol
      show _ = (if row * sk.length + col < t.length then
        [t.getD (row * sk.length + col) ' '] else [])
      by_cases hlt : row * sk.length + col < t.length
      · have hex := sortedKeyOrder_covers sk col hcK
        have hcd : row < cdLen t.length sk.length col := by
          rw [cdLen_eq_B t.length sk.length col hK hcK]
          exact (lt_B_iff t.length sk.length col row hK).mpr hlt
        rw [if_pos ⟨hex, hcd⟩, if_pos hlt]
        rfl
      · have hneg : ¬((∃ k ∈ sortedKeyOrder sk, k.1 = col) ∧
            row < cdLen t.length sk.length col) := by
          intro hand
          apply hlt
          have hcd := hand.2
          rw [cdLen_eq_B t.length sk.length col hK hcK] at hcd
          exact (lt_B_iff t.length sk.length col row hK).mp hcd
        rw [if_neg hneg, if_neg hlt]
        rfl
    rw [flatMap_congr _ _ _ hin,
      flatMap_ite_singleton
        (fun (col : Nat) => row * sk.length + col < t.length)
        (fun (col : Nat) => t.getD (row * sk.length + col) ' ') _]
    have hfc : ∀ col ∈ List.range sk.length,
        decide (row * sk.length + col < t.length) =
          decide (col < t.length - row * sk.length) := by
      intro col _
      exact decide_eq_decide.mpr (by omega)
    rw [List.filter_congr hfc, filter_range_lt_eq]
  rw [flatMap_congr _ _ _ houter]
  have hle : t.length ≤
      ((t.length + sk.length - 1) / sk.length) * sk.length := by
    have h1 := Nat.div_add_mod (t.length + sk.length - 1) sk.length
    have h2 : (t.length + sk.length - 1) % sk.length < sk.length :=
      Nat.mod_lt _ hK
    rw [Nat.mul_comm]
    omega
  exact chunks_cover sk.length hK
    ((t.length + sk.length - 1) / sk.length) t hle

/-- C1: for every key whose sanitized form (upper-cased, non-Latin-letter
characters stripped) is non-empty and every text, decrypting an encryption
with the columnar transposition cipher returns the text exactly; the
decrypt side's per-column length (`numRows` when `fullCols = len % numCols`
is `0` or the column's original index is below `fullCols`, else
`numRows - 1`) is the one embedded in `columnarTranspositionDecrypt`. -/
theorem columnarTransposition_roundtrip (t key : List Char)
    (hkey : sanitizeTranspositionKey key ≠ []) :
    (columnarTranspositionEncrypt t key).bind
      (fun ct => columnarTranspositionDecrypt ct key) = .ok t := by
  have hK : 0 < (sanitizeTranspositionKey key).length :=
    List.length_pos.mpr hkey
  rw [columnarTranspositionEncrypt_eq t key hkey]
  show columnarTranspositionDecrypt
    ((sortedKeyOrder (sanitizeTranspositionKey key)).flatMap
      (fun k => ctColList t (sanitizeTranspositionKey key).length k.1)) key
    = .ok t
  set C := (sortedKeyOrder (sanitizeTranspositionKey key)).flatMap
    (fun k => ctColList t (sanitizeTranspositionKey key).length k.1)
    with hCdef
  have hlen : C.length = t.length := by
    rw [hCdef]
    exact length_enc_cols t (sanitizeTranspositionKey key) hK
  show (if sanitizeTranspositionKey key = [] then
      (Except.error CipherError.invalidKey : Except CipherError (List Char))
    else Except.ok ((List.range
        ((C.length + (sanitizeTranspositionKey key).length - 1) /
          (sanitizeTranspositionKey key).length)).flatMap
      (fun row => (List.range
          (sanitizeTranspositionKey key).length).flatMap (fun col =>
        (((sortedKeyOrder (sanitizeTranspositionKey key)).foldl (fun st k =>
          (List.range (if C.length % (sanitizeTranspositionKey key).length =
              0 ∨ k.1 < C.length %
                (sanitizeTranspositionKey key).length then
            (C.length + (sanitizeTranspositionKey key).length - 1) /
              (sanitizeTranspositionKey key).length
          else (C.length + (sanitizeTranspositionKey key).length - 1) /
              (sanitizeTranspositionKey key).length - 1)).foldl
          (ctdFillStep C k.1) st) ((fun _ _ => none), 0)).1
          row col).toList)))) = .ok t
  rw [if_neg hkey]
  congr 1
  exact ctd_read_eq t C (sanitizeTranspositionKey key) hK hlen hCdef

/-- Witness for C1 at the spec's scenario input. -/
theorem columnarTransposition_roundtrip_witness :
    (columnarTranspositionEncrypt "ATTACKATDAWN".toList "ZEBRA".toList).bind
      (fun ct => columnarTranspositionDecrypt ct "ZEBRA".toList) =
      .ok "ATTACKATDAWN".toList :=
  columnarTransposition_roundtrip "ATTACKATDAWN".toList "ZEBRA".toList
    (by decide)
